import Mathlib

/-!
Verification development for the PythonHttpTracker crawler.

The Python source under `src/` is shallowly embedded: pure helper
functions become Lean functions on `String` / `List Char`; the SQLite
store becomes an explicit record of table rows; the engine loop becomes
a labelled transition system.  Library calls whose exact value is
irrelevant to the verified properties but whose output merely flows
through (MD5 hex digests, percent-decoding, user-supplied regex
patterns) are taken as function parameters, so every theorem quantifies
over them.  Machine integers stay `Nat`: the crawler only ever forms
depths `0` and `d+1` and row counters, far from any overflow.
-/

namespace PHT

/-! ### Generic list/string helpers -/

/-- First split at a character: returns the part before the first
occurrence of `c` and, when `c` occurs, the part after it.  Mirrors
Python `s.split(c, 1)`. -/
def break1 (c : Char) : List Char → List Char × Option (List Char)
  | [] => ([], none)
  | x :: xs =>
    if x = c then ([], some xs)
    else
      let r := break1 c xs
      (x :: r.1, r.2)

/-- Split on every occurrence of a character, keeping empty pieces,
as Python `str.split('<c>')` does. -/
def split_char (c : Char) : List Char → List (List Char)
  | [] => [[]]
  | x :: xs =>
    match split_char c xs with
    | [] => [[]]
    | h :: t => if x = c then [] :: h :: t else (x :: h) :: t

/-- Boolean substring test, Python's `needle in hay`. -/
def infixB (needle : List Char) : List Char → Bool
  | [] => needle.isEmpty
  | hay@(_ :: t) => needle.isPrefixOf hay || infixB needle t

/-- Boolean suffix test. -/
def suffixB (a b : List Char) : Bool := a.reverse.isPrefixOf b.reverse

/-- Add an element to a set-as-list, Python `set.add`. -/
def insert_new (s : List String) (x : String) : List String :=
  if s.contains x then s else s ++ [x]

/-! ### Python `urllib.parse.urlparse` model

Faithful to CPython's `urlsplit` + `_splitparams` (see
`database_manager.py` imports and `base_crawler.py` usage): strip
leading C0-control/space characters, delete every tab/CR/LF, split a
valid scheme (lowercased), a `//netloc` delimited by `/?#`, the
fragment at the first `#`, the query at the first `?`, and finally the
`;params` of the last path segment.  The IPv6-bracket validation
(which can only raise) is not modelled. -/

structure UrlParts where
  scheme : List Char
  netloc : List Char
  path : List Char
  params : List Char
  query : List Char
  fragment : List Char
deriving DecidableEq, Repr

def control_or_space (c : Char) : Bool := c.val ≤ 32

def tab_cr_lf (c : Char) : Bool := c = '\t' || c = '\n' || c = '\r'

/-- Python `str.isascii` for a single character. -/
def is_ascii (c : Char) : Bool := c.toNat ≤ 127

def scheme_char (c : Char) : Bool :=
  c.isAlpha || c.isDigit || c = '+' || c = '-' || c = '.'

/-- Scheme detection of `urlsplit`: a leading `:` at position `> 0`,
an ASCII-alphabetic first character, and only scheme characters before
the colon.  Returns `(scheme lowercased, rest)`. -/
def split_scheme (u : List Char) : List Char × List Char :=
  match break1 ':' u with
  | (before, some after) =>
    match before with
    | [] => ([], u)
    | c0 :: _ =>
      if is_ascii c0 && c0.isAlpha && before.all scheme_char then
        (before.map Char.toLower, after)
      else ([], u)
  | (_, none) => ([], u)

def netloc_stop (c : Char) : Bool := c = '/' || c = '?' || c = '#'

/-- `_splitnetloc`: after a leading `//`, the netloc runs to the first
of `/`, `?`, `#`. -/
def split_netloc (u : List Char) : List Char × List Char :=
  match u with
  | '/' :: '/' :: rest =>
    (rest.takeWhile (fun c => !netloc_stop c), rest.dropWhile (fun c => !netloc_stop c))
  | _ => ([], u)

/-- `_splitparams`: split the `;params` of the last path segment. -/
def split_params (p : List Char) : List Char × List Char :=
  if p.contains '/' then
    let lastSeg := (p.reverse.takeWhile (fun c => c ≠ '/')).reverse
    let pre := p.take (p.length - lastSeg.length)
    match break1 ';' lastSeg with
    | (a, some b) => (pre ++ a, b)
    | (_, none) => (p, [])
  else
    match break1 ';' p with
    | (a, some b) => (a, b)
    | (_, none) => (p, [])

def py_urlparse_l (url : List Char) : UrlParts :=
  let u0 := url.dropWhile control_or_space
  let u1 := u0.filter (fun c => !tab_cr_lf c)
  let (sch, r1) := split_scheme u1
  let (nl, r2) := split_netloc r1
  let (r3, fragO) := break1 '#' r2
  let (r4, queryO) := break1 '?' r3
  let (pathPart, paramsPart) := split_params r4
  { scheme := sch, netloc := nl, path := pathPart, params := paramsPart,
    query := queryO.getD [], fragment := fragO.getD [] }

def py_urlparse (url : String) : UrlParts := py_urlparse_l url.data

/-! ### URL policy and normalization (`base_crawler.py`, `web_crawler.py`) -/

/-- `BaseCrawler.normalize_url`: rebuild the URL from scheme, netloc
and path, appending `?query` when the parsed query is non-empty.  The
fragment (and, through `urlparse`, the `;params`) disappear. -/
def normalize_url (url : String) : String :=
  let p := py_urlparse url
  String.mk (p.scheme ++ "://".data ++ p.netloc ++ p.path ++
    (if p.query.isEmpty then [] else '?' :: p.query))

/-- `WebCrawler.clean_url`: like `normalize_url` but without the query. -/
def clean_url (url : String) : String :=
  let p := py_urlparse url
  String.mk (p.scheme ++ "://".data ++ p.netloc ++ p.path)

/-- Configuration slice used by the admission filter and path mapper.
Regex patterns from the YAML configuration are modelled as opaque
match predicates (Python `re.search(p, url)` truthiness). -/
structure CrawlerConfig where
  base_domain : String
  valid_url_patterns : List (String → Bool)
  exclude_patterns : List (String → Bool)
  max_depth : Nat
  start_url : String
  space_name : String
  output_dir : String
  output_format : String

/-- `BaseCrawler.should_download` translated clause by clause: depth
gate, raw-URL membership in the downloaded set, raw-URL membership in
the active set, substring test of `base_domain` in the parsed netloc,
exclude patterns, then valid patterns. -/
def should_download (cfg : CrawlerConfig) (downloaded_urls active_downloads : List String)
    (url : String) (depth : Nat) : Bool :=
  if cfg.max_depth < depth then false
  else if downloaded_urls.contains url then false
  else if active_downloads.contains url then false
  else if !cfg.base_domain.data.isEmpty && !infixB cfg.base_domain.data (py_urlparse url).netloc
  then false
  else if cfg.exclude_patterns.any (fun p => p url) then false
  else if !cfg.valid_url_patterns.isEmpty && !cfg.valid_url_patterns.any (fun p => p url) then
    false
  else true

/-! ### Page identifier extraction and the path mapper -/

/-- Maximal leading digit run, the greedy capture of a leading `\d+`. -/
def digit_run (l : List Char) : List Char := l.takeWhile Char.isDigit

/-- Leftmost match of a pattern `<lit>(\d+)`: scan left to right for
the literal followed by at least one digit; the capture is the maximal
digit run (Python `re.search` semantics for these patterns). -/
def search_lit_digits (lit : List Char) : List Char → Option (List Char)
  | [] => none
  | s@(_ :: t) =>
    if lit.isPrefixOf s &&
        (match s.drop lit.length with
         | d :: _ => d.isDigit
         | [] => false) then
      some (digit_run (s.drop lit.length))
    else search_lit_digits lit t

/-- Leftmost match of `/(\d{6,})`: a slash followed by six or more
digits; the capture is the maximal digit run after the slash. -/
def search_slash_digits6 : List Char → Option (List Char)
  | [] => none
  | '/' :: rest =>
    let d := digit_run rest
    if 6 ≤ d.length then some d else search_slash_digits6 rest
  | _ :: t => search_slash_digits6 t

/-- `BaseCrawler._extract_page_identifier`: three patterns tried in
order (`/pages/(\d+)`, `pageId=(\d+)`, `/(\d{6,})`); the Python empty
string result is `none` here. -/
def extract_page_identifier (url : String) : Option String :=
  match search_lit_digits "/pages/".data url.data with
  | some d => some (String.mk d)
  | none =>
    match search_lit_digits "pageId=".data url.data with
    | some d => some (String.mk d)
    | none =>
      match search_slash_digits6 url.data with
      | some d => some (String.mk d)
      | none => none

/-- `ConfluenceAPICrawler._extract_page_id`: four patterns, with
`/content/(\d+)` third, then the CQL title search (a network call,
modelled as the opaque `resolve_via_title`). -/
def extract_page_id (resolve_via_title : String → Option String) (url : String) :
    Option String :=
  match search_lit_digits "/pages/".data url.data with
  | some d => some (String.mk d)
  | none =>
    match search_lit_digits "pageId=".data url.data with
    | some d => some (String.mk d)
    | none =>
      match search_lit_digits "/content/".data url.data with
      | some d => some (String.mk d)
      | none =>
        match search_slash_digits6 url.data with
        | some d => some (String.mk d)
        | none => resolve_via_title url

/-- Non-empty path segments, Python
`[p for p in parsed_url.path.split('/') if p]`. -/
def path_parts (url : String) : List (List Char) :=
  (split_char '/' (py_urlparse url).path).filter (fun p => !p.isEmpty)

/-- Directory-name part of `BaseCrawler.generate_local_path`: page id
when extracted, else the last non-empty path segment, else
`page_` + the first ten hex characters of the MD5 of the URL.  The MD5
hex digest is an opaque parameter. -/
def page_dir_name (md5hex : String → String) (url : String) : String :=
  match extract_page_identifier url with
  | some pid => pid
  | none =>
    match (path_parts url).getLast? with
    | some lastPart => String.mk lastPart
    | none => "page_" ++ (md5hex url).take 10

/-- `BaseCrawler.generate_local_path` as a string path,
`<output_dir>/spaces/<space>/pages/<dir>/index.<ext>`. -/
def generate_local_path (md5hex : String → String) (cfg : CrawlerConfig) (url : String) :
    String :=
  cfg.output_dir ++ "/spaces/" ++ cfg.space_name ++ "/pages/" ++
    page_dir_name md5hex url ++ "/index" ++
    (if cfg.output_format = "markdown" then ".md" else ".html")

/-- `WebCrawler.url_to_local_path`: strip a known prefix, default to
`index`, append the extension, replace reserved characters by `_`,
percent-decode (opaque `unquote`), strip leading slashes, and prefix
the output directory. -/
def url_to_local_path (unquote : String → String) (cfg : CrawlerConfig) (url : String) :
    String :=
  let p0 := (py_urlparse url).path
  let p1 :=
    if "/wiki/".data.isPrefixOf p0 then p0.drop 6
    else if "/docs/".data.isPrefixOf p0 then p0.drop 6
    else if "/help/".data.isPrefixOf p0 then p0.drop 6
    else p0
  let p2 := if p1.isEmpty || p1 = ['/'] then "index".data else p1
  let ext := if cfg.output_format = "markdown" then ".md".data else ".html".data
  let p3 :=
    if suffixB ['/'] p2 then p2 ++ "index".data ++ ext
    else if suffixB ".html".data p2 || suffixB ".md".data p2 then p2
    else p2 ++ ext
  let p4 := p3.map (fun c =>
    if c = '<' || c = '>' || c = ':' || c = '"' || c = '|' || c = '?' || c = '*' then '_'
    else c)
  let p5 := (unquote (String.mk p4)).data
  let p6 := p5.dropWhile (fun c => c = '/')
  cfg.output_dir ++ "/" ++ String.mk p6

/-! ### The Store (`database_manager.py`)

SQLite tables become lists of row records in insertion order.
`AUTOINCREMENT` ids and `CURRENT_TIMESTAMP` defaults are not part of
any verified property and are omitted; the SQL `REAL` download time is
carried opaquely as `Option Nat`.  Every public method of
`DatabaseManager` runs under `db_lock`, so an execution is a sequence
of these operations. -/

inductive UrlStatus
  | pending
  | downloading
  | completed
  | failed
deriving DecidableEq, Repr

/-- Row of `discovered_urls` (`url` carries a UNIQUE constraint). -/
structure DiscoveredRow where
  url : String
  clean_url : String
  depth : Nat
  status : UrlStatus
  retry_count : Nat
  error_message : Option String
  parent_url : Option String
deriving DecidableEq, Repr

/-- Row of `downloaded_documents` (`url` carries a UNIQUE constraint). -/
structure DocumentRow where
  url : String
  clean_url : String
  local_path : String
  file_size : Option Nat
  download_time : Option Nat
  depth : Option Nat
  links_extracted : Nat
deriving DecidableEq, Repr

/-- Row of `url_mappings` (`clean_url` carries a UNIQUE constraint). -/
structure MappingRow where
  clean_url : String
  local_path : String
deriving DecidableEq, Repr

structure Store where
  discovered : List DiscoveredRow
  documents : List DocumentRow
  mappings : List MappingRow
deriving DecidableEq, Repr

def empty_store : Store := ⟨[], [], []⟩

/-- `add_discovered_url`: `INSERT OR IGNORE` keyed on the UNIQUE `url`
column; returns whether a row was inserted. -/
def add_discovered_url (s : Store) (url clean_url : String) (depth : Nat)
    (parent_url : Option String) : Store × Bool :=
  if s.discovered.any (fun r => r.url = url) then (s, false)
  else
    ({ s with discovered := s.discovered ++
        [{ url := url, clean_url := clean_url, depth := depth, status := .pending,
           retry_count := 0, error_message := none, parent_url := parent_url }] },
     true)

/-- `add_discovered_urls_batch`: `executemany` of the same insert in
one transaction; returns the number of rows actually inserted. -/
def add_discovered_urls_batch (s : Store)
    (urls_data : List (String × String × Nat × Option String)) : Store × Nat :=
  match urls_data with
  | [] => (s, 0)
  | (url, clean, depth, parent) :: rest =>
    let (s1, ins) := add_discovered_url s url clean depth parent
    let (s2, n) := add_discovered_urls_batch s1 rest
    (s2, (if ins then 1 else 0) + n)

/-- `mark_url_downloading`: conditional `pending → downloading`
transition on every row with the given `clean_url`; returns whether a
row was affected. -/
def mark_url_downloading (s : Store) (clean_url : String) : Store × Bool :=
  ({ s with discovered := s.discovered.map (fun r =>
      if r.clean_url = clean_url && r.status = .pending then { r with status := .downloading }
      else r) },
   s.discovered.any (fun r => r.clean_url = clean_url && r.status = .pending))

/-- Replace-style insert into `downloaded_documents`
(`INSERT OR REPLACE` on the UNIQUE `url` column). -/
def upsert_document (docs : List DocumentRow) (row : DocumentRow) : List DocumentRow :=
  docs.filter (fun d => d.url ≠ row.url) ++ [row]

/-- Replace-style insert into `url_mappings`
(`INSERT OR REPLACE` on the UNIQUE `clean_url` column). -/
def upsert_mapping (maps : List MappingRow) (row : MappingRow) : List MappingRow :=
  maps.filter (fun m => m.clean_url ≠ row.clean_url) ++ [row]

/-- `mark_url_completed`: one transaction setting every matching
`discovered_urls` row to `completed`, upserting the document row (the
code passes `clean_url` for both `url` and `clean_url`), and upserting
the URL mapping. -/
def mark_url_completed (s : Store) (clean_url local_path : String)
    (file_size download_time : Option Nat) (links_extracted : Nat) (depth : Option Nat) :
    Store :=
  { discovered := s.discovered.map (fun r =>
      if r.clean_url = clean_url then { r with status := .completed } else r),
    documents := upsert_document s.documents
      { url := clean_url, clean_url := clean_url, local_path := local_path,
        file_size := file_size, download_time := download_time, depth := depth,
        links_extracted := links_extracted },
    mappings := upsert_mapping s.mappings
      { clean_url := clean_url, local_path := local_path } }

/-- `mark_url_failed`: set matching rows to `failed`, store the error
message, bump `retry_count`; returns whether a row was affected. -/
def mark_url_failed (s : Store) (clean_url : String) (error_message : Option String) :
    Store × Bool :=
  ({ s with discovered := s.discovered.map (fun r =>
      if r.clean_url = clean_url then
        { r with status := .failed, error_message := error_message,
                 retry_count := r.retry_count + 1 }
      else r) },
   s.discovered.any (fun r => r.clean_url = clean_url))

/-- `reset_progress`: truncate the four lifecycle tables. -/
def reset_progress (_s : Store) : Store := empty_store

/-- `get_pending_urls` rows as `(url, depth)` pairs.  The SQL
`ORDER BY depth ASC, discovered_at ASC` is not modelled; no verified
property depends on the ordering. -/
def pending_pairs (s : Store) : List (String × Nat) :=
  (s.discovered.filter (fun r => r.status = .pending)).map (fun r => (r.url, r.depth))

/-- `get_downloaded_urls`: the `clean_url` column of
`downloaded_documents`. -/
def doc_clean_urls (s : Store) : List String := s.documents.map (fun d => d.clean_url)

/-- Number of `discovered_urls` rows with a given `url` value. -/
def count_url (s : Store) (u : String) : Nat :=
  s.discovered.countP (fun r => r.url = u)

/-- Number of `discovered_urls` rows with a given `clean_url` value. -/
def count_clean (s : Store) (c : String) : Nat :=
  s.discovered.countP (fun r => r.clean_url = c)

/-! ### Admission traces (claim C1) -/

/-- One admission call: `add_discovered_url` or
`add_discovered_urls_batch` (all calls are serialized by `db_lock`,
so a concurrent execution is some interleaving, i.e. some list). -/
inductive AdmitOp
  | admitOne (url clean_url : String) (depth : Nat) (parent_url : Option String)
  | admitBatch (urls_data : List (String × String × Nat × Option String))

def run_admit_op (s : Store) : AdmitOp → Store
  | .admitOne url clean depth parent => (add_discovered_url s url clean depth parent).1
  | .admitBatch d => (add_discovered_urls_batch s d).1

def run_admits (ops : List AdmitOp) (s : Store) : Store :=
  ops.foldl run_admit_op s

/-- An admission call whose raw and clean arguments coincide. -/
def admit_raw_is_clean : AdmitOp → Prop
  | .admitOne url clean _ _ => url = clean
  | .admitBatch d => ∀ x ∈ d, x.1 = x.2.1

/-! ### Guarded store lifecycle (claim C3) -/

/-- The `DownloadedDocument exists iff completed` correspondence, in
the list-bounded form (equivalent to the per-URL form because document
rows carry their `clean_url`). -/
def doc_iff_completed (s : Store) : Prop :=
  (∀ d ∈ s.documents, ∃ r ∈ s.discovered, r.clean_url = d.clean_url ∧ r.status = .completed) ∧
  (∀ r ∈ s.discovered, r.status = .completed →
    ∃ d ∈ s.documents, d.clean_url = r.clean_url)

/-- Store states reachable by the normal lifecycle: completion only
for URLs present in `discovered_urls`, failure only for URLs without a
completed row.  (The unguarded operations break `doc_iff_completed`;
see the C3 counterexample.) -/
inductive StoreReachable : Store → Prop
  | init : StoreReachable empty_store
  | admitOne (s : Store) (url clean : String) (depth : Nat) (parent : Option String) :
      StoreReachable s → StoreReachable (add_discovered_url s url clean depth parent).1
  | admitBatch (s : Store) (d : List (String × String × Nat × Option String)) :
      StoreReachable s → StoreReachable (add_discovered_urls_batch s d).1
  | downloading (s : Store) (clean : String) :
      StoreReachable s → StoreReachable (mark_url_downloading s clean).1
  | completed (s : Store) (clean lp : String) (fs dt : Option Nat) (le : Nat)
      (dep : Option Nat) :
      StoreReachable s → (∃ r ∈ s.discovered, r.clean_url = clean) →
      StoreReachable (mark_url_completed s clean lp fs dt le dep)
  | failed (s : Store) (clean : String) (err : Option String) :
      StoreReachable s →
      (∀ r ∈ s.discovered, r.clean_url = clean → r.status ≠ .completed) →
      StoreReachable (mark_url_failed s clean err).1
  | reset (s : Store) : StoreReachable s → StoreReachable (reset_progress s)

/-! ### Fetch workers (`base_crawler._process_url`,
`web_crawler.download_url_parallel`) -/

/-- Result dictionary returned by `_process_url` to the engine loop. -/
structure ProcResult where
  success : Bool
  is_space_index : Bool
  links : List String
  error : Option String
deriving DecidableEq, Repr

/-- Outcome of `fetch_page` plus the save step, as seen by
`_process_url` (network and filesystem effects summarized by data). -/
structure FetchSim where
  success : Bool
  err : String
  is_space_index : Bool
  links : List String
  save_ok : Bool
  file_size : Nat
deriving DecidableEq, Repr

/-- `BaseCrawler._process_url` body (the part inside `try`): on a
failed fetch or failed save return a failure result; otherwise save
and, unless the result is a space index, add the normalized URL to the
downloaded set and mark it completed in the store (passing no
download time, zero links and no depth, as the source does). -/
def process_url (md5hex : String → String) (cfg : CrawlerConfig) (store : Store)
    (downloaded : List String) (url : String) (_depth : Nat) (o : FetchSim) :
    Store × List String × ProcResult :=
  if !o.success then
    (store, downloaded, ⟨false, false, [], some o.err⟩)
  else if !o.save_ok then
    (store, downloaded, ⟨false, false, [], some "Failed to save page"⟩)
  else if o.is_space_index then
    (store, downloaded, ⟨true, true, o.links, none⟩)
  else
    let clean := normalize_url url
    let lp := generate_local_path md5hex cfg url
    (mark_url_completed store clean lp (some o.file_size) none 0 none,
     insert_new downloaded clean,
     ⟨true, false, o.links, none⟩)

/-- `BaseCrawler._process_url` with its `try/except`: an exception
anywhere in fetch or save is absorbed into a failure result and the
store is left untouched. -/
def process_url_catch (md5hex : String → String) (cfg : CrawlerConfig) (store : Store)
    (downloaded : List String) (url : String) (depth : Nat)
    (fetched : Except String FetchSim) : Store × List String × ProcResult :=
  match fetched with
  | .error e => (store, downloaded, ⟨false, false, [], some e⟩)
  | .ok o => process_url md5hex cfg store downloaded url depth o

/-- In-memory state touched by `WebCrawler.download_url_parallel`. -/
structure WebState where
  store : Store
  downloaded : List String
  active : List String
  url_to_filename : List (String × String)
  queue : List (String × Nat)
deriving Repr

/-- What the HTTP roundtrip of `download_url_parallel` produced:
an exception (connection error, non-2xx from `raise_for_status`,
timeout, filesystem error, ...) or a page body summarized by its
authentication-heuristic verdict, extracted links and file size. -/
inductive WebOutcome
  | exc (msg : String)
  | page (auth_error : Bool) (links : List String) (file_size : Nat) (dl_time : Option Nat)

def upsert_assoc (m : List (String × String)) (k v : String) : List (String × String) :=
  if m.any (fun p => p.1 = k) then m.map (fun p => if p.1 = k then (k, v) else p)
  else m ++ [(k, v)]

/-- `WebCrawler.download_url_parallel` translated step by step:
duplicate checks against the downloaded set and the active set, then
either the exception handler (`mark_url_failed`), the authentication
branch (`mark_url_failed`), or the success path (batch-insert of the
discovered links at `depth - 1`, queue appends, `mark_url_completed`
with the real depth, set and mapping updates).  The early-exit paths
return with the state unchanged. -/
def download_url_parallel (unquote : String → String) (cfg : CrawlerConfig)
    (s : WebState) (url : String) (depth : Nat) (o : WebOutcome) : WebState :=
  let cu := clean_url url
  if s.downloaded.contains cu then s
  else if s.active.contains cu then s
  else
    let s1 : WebState := { s with active := s.active ++ [cu] }
    match o with
    | .exc m => { s1 with store := (mark_url_failed s1.store cu (some m)).1 }
    | .page auth links fsize dt =>
      if auth then
        { s1 with store := (mark_url_failed s1.store cu
            (some "Authentication error: Page requires login or cookies expired")).1 }
      else
        let lp := url_to_local_path unquote cfg cu
        let urls_data :=
          if 0 < depth then
            (links.filter (fun l => !s1.downloaded.contains l)).map
              (fun l => (l, clean_url l, depth - 1, some cu))
          else []
        let (st2, cnt) := add_discovered_urls_batch s1.store urls_data
        let q2 := s1.queue ++ (urls_data.filter (fun x =>
            !s1.downloaded.contains x.2.1 && !s1.active.contains x.2.1)).map
            (fun x => (x.2.1, x.2.2.1))
        { store := mark_url_completed st2 cu lp (some fsize) dt cnt (some depth),
          downloaded := insert_new s1.downloaded cu,
          active := s1.active,
          url_to_filename := upsert_assoc s1.url_to_filename cu lp,
          queue := q2 }

/-! ### The engine loop (`base_crawler.crawl`)

The thread-pool scheduler is modelled as a serialized transition
system: one step pops a queue entry and either skips it (admission
re-check fails) or runs the whole worker plus the engine's
result-processing.  The `active_downloads` set is empty at every such
atomic step, so `should_download` receives `[]` for it. -/

structure EngineState where
  queue : List (String × Nat)
  store : Store
  downloaded : List String
  downloaded_count : Nat
  failed_count : Nat
deriving Repr

/-- Link fan-out of the engine loop: every returned link whose
normalized form is not in the downloaded set is appended to the queue
and inserted into the store (at `next_depth`) with the processed URL
as parent. -/
def add_links (downloaded : List String) (parent : String) (next_depth : Nat) :
    List String → List (String × Nat) → Store → List (String × Nat) × Store
  | [], q, st => (q, st)
  | l :: ls, q, st =>
    let nl := normalize_url l
    if downloaded.contains nl then add_links downloaded parent next_depth ls q st
    else
      add_links downloaded parent next_depth ls (q ++ [(l, next_depth)])
        (add_discovered_url st l nl next_depth (some parent)).1

/-- One dispatched job, worker and engine-side result handling
combined: run `_process_url`, then (`crawl`, completion handling)
count the download unless it is a space index, and insert links —
space indexes always, at depth `0`; ordinary pages only when
`depth < max_depth`, at `depth + 1`. -/
def engine_apply (md5hex : String → String) (cfg : CrawlerConfig) (s : EngineState)
    (url : String) (depth : Nat) (o : FetchSim) : EngineState :=
  let (store1, down1, r) := process_url md5hex cfg s.store s.downloaded url depth o
  if r.success then
    let dlCount := if r.is_space_index then s.downloaded_count else s.downloaded_count + 1
    let should_add := !r.links.isEmpty && (r.is_space_index || depth < cfg.max_depth)
    let nd := if r.is_space_index then 0 else depth + 1
    let (q2, store2) :=
      if should_add then add_links down1 url nd r.links s.queue store1
      else (s.queue, store1)
    { queue := q2, store := store2, downloaded := down1,
      downloaded_count := dlCount, failed_count := s.failed_count }
  else
    { s with store := store1, downloaded := down1, failed_count := s.failed_count + 1 }

inductive EngineStep (md5hex : String → String) (cfg : CrawlerConfig) :
    EngineState → EngineState → Prop
  | skip (s : EngineState) (u : String) (d : Nat) (rest : List (String × Nat)) :
      s.queue = (u, d) :: rest → should_download cfg s.downloaded [] u d = false →
      EngineStep md5hex cfg s { s with queue := rest }
  | run (s : EngineState) (u : String) (d : Nat) (rest : List (String × Nat)) (o : FetchSim) :
      s.queue = (u, d) :: rest → should_download cfg s.downloaded [] u d = true →
      EngineStep md5hex cfg s (engine_apply md5hex cfg { s with queue := rest } u d o)

/-- Shape of the rows `add_links` inserts: a pending row at the
fan-out depth whose clean URL is the normalization of its raw URL. -/
def fresh_row_at (nd : Nat) (row : DiscoveredRow) : Prop :=
  row.clean_url = normalize_url row.url ∧ row.depth = nd ∧ row.status = .pending

/-- Depth bound on the store: every discovered row, and every document
row carrying a depth, is within `max_depth`. -/
def store_depth_ok (maxD : Nat) (st : Store) : Prop :=
  (∀ r ∈ st.discovered, r.depth ≤ maxD) ∧
  (∀ d ∈ st.documents, ∀ n, d.depth = some n → n ≤ maxD)

/-- The state `crawl` starts from on a fresh database: the start URL
queued and admitted at depth 0. -/
def fresh_state (cfg : CrawlerConfig) : EngineState :=
  { queue := [(cfg.start_url, 0)],
    store := (add_discovered_url empty_store cfg.start_url (normalize_url cfg.start_url)
      0 none).1,
    downloaded := [], downloaded_count := 0, failed_count := 0 }

/-- Engine states reachable by `crawl`: a fresh start, or a resume
from a store whose depths already satisfy the bound (the same
configuration produced it), followed by any number of steps. -/
inductive EngineReach (md5hex : String → String) (cfg : CrawlerConfig) :
    EngineState → Prop
  | fresh : EngineReach md5hex cfg (fresh_state cfg)
  | resume (st : Store) : store_depth_ok cfg.max_depth st →
      EngineReach md5hex cfg
        { queue := pending_pairs st, store := st, downloaded := doc_clean_urls st,
          downloaded_count := 0, failed_count := 0 }
  | step (s s' : EngineState) : EngineReach md5hex cfg s → EngineStep md5hex cfg s s' →
      EngineReach md5hex cfg s'

/-! ### Attachment URL rewriting
(`confluence_api_crawler._rewrite_attachment_urls`)

The six `re.sub` calls use patterns of two shapes: an escaped literal
followed by the optional query group `(?:\?[^"'\s>]*)?`, and the two
thumbnail patterns built from character classes.  `re.sub` is modelled
as a left-to-right scan (`subG`) parameterized by a matcher returning
the number of consumed characters; the matchers implement the
greedy/backtracking behaviour of these concrete patterns. -/

/-- Python `\s` on the characters that can appear here. -/
def is_py_space (c : Char) : Bool :=
  c = ' ' || c = '\t' || c = '\n' || c = '\r' || c = '\x0b' || c = '\x0c'

/-- Class `[^"'\s>]` of the optional-query group. -/
def q_class (c : Char) : Bool := !(c = '"' || c = '\'' || c = '>' || is_py_space c)

/-- Class `[^"'\s]` of the thumbnail patterns. -/
def t_class (c : Char) : Bool := !(c = '"' || c = '\'' || is_py_space c)

/-- Greedy match length of `(?:\?[^"'\s>]*)?` at the head. -/
def qlen (s : List Char) : Nat :=
  match s with
  | '?' :: rest => 1 + (rest.takeWhile q_class).length
  | _ => 0

/-- Matcher for `re.escape(X)(?:\?[^"'\s>]*)?`: fires iff the literal
is a prefix (always, for the empty literal), consuming the literal and
the greedy optional query. -/
def litM (x : List Char) (s : List Char) : Option Nat :=
  if x.isPrefixOf s then some (x.length + qlen (s.drop x.length)) else none

/-- The literal spine of the thumbnail patterns. -/
def thumbW : List Char := "/wiki/download/thumbnails/".data

/-- Largest `j ≤ k` whose remainder starts with `/<fn>` — the greedy,
backtracking choice of `[^"'\s]*` before `/` + the escaped filename. -/
def back_find (fn rest : List Char) (k : Nat) : Option Nat :=
  ((List.range (k + 1)).reverse).find? (fun j => ('/' :: fn).isPrefixOf (rest.drop j))

/-- Matcher for `/wiki/download/thumbnails/[^"'\s]*/<fn>(?:\?...)?`. -/
def thumbM6 (fn : List Char) (s : List Char) : Option Nat :=
  if thumbW.isPrefixOf s then
    let rest := s.drop thumbW.length
    let k := (rest.takeWhile t_class).length
    match back_find fn rest k with
    | some j => some (thumbW.length + j + 1 + fn.length + qlen (rest.drop (j + 1 + fn.length)))
    | none => none
  else none

/-- Inner backtracking of `thumbM5`: after the scheme, the host class
run `[^"'\s]+` (length `j1 ≥ 1`) must be followed by the thumbnail
spine, then the `[^"'\s]*` run and `/<fn>` as in `thumbM6`. -/
def thumb5_host (fn rest : List Char) : Option Nat :=
  let k1 := (rest.takeWhile t_class).length
  ((List.range (k1 + 1)).reverse).findSome? (fun j1 =>
    if j1 = 0 then none
    else if thumbW.isPrefixOf (rest.drop j1) then
      let rest2 := (rest.drop j1).drop thumbW.length
      let k2 := (rest2.takeWhile t_class).length
      match back_find fn rest2 k2 with
      | some j2 =>
        some (j1 + thumbW.length + j2 + 1 + fn.length + qlen (rest2.drop (j2 + 1 + fn.length)))
      | none => none
    else none)

/-- Matcher for
`https?://[^"'\s]+/wiki/download/thumbnails/[^"'\s]*/<fn>(?:\?...)?`. -/
def thumbM5 (fn : List Char) (s : List Char) : Option Nat :=
  if "https://".data.isPrefixOf s then
    (thumb5_host fn (s.drop 8)).map (fun n => 8 + n)
  else if "http://".data.isPrefixOf s then
    (thumb5_host fn (s.drop 7)).map (fun n => 7 + n)
  else none

/-- Fuelled core of `re.sub`: at each position, a match of length
`n+1` emits the replacement and skips the match; a zero-width match
emits the replacement and the current character; otherwise the
character is copied.  A zero-width match at the very end emits one
final replacement, as Python does. -/
def subGF (m : List Char → Option Nat) (r : List Char) : Nat → List Char → List Char
  | 0, s => s
  | _ + 1, [] => if (m []).isSome then r else []
  | fuel + 1, c :: s =>
    match m (c :: s) with
    | none => c :: subGF m r fuel s
    | some 0 => r ++ c :: subGF m r fuel s
    | some (n + 1) => r ++ subGF m r fuel (s.drop n)

/-- `re.sub(pattern-of-matcher m, r, s)`. -/
def subG (m : List Char → Option Nat) (r : List Char) (s : List Char) : List Char :=
  subGF m r (s.length + 1) s

/-- Python `pathlib.Path(p).name` for the paths produced by
`_process_attachment` (no `.`/`..` components). -/
def path_name (p : String) : List Char :=
  (((split_char '/' p.data).filter (fun x => !x.isEmpty)).getLast?).getD []

/-- Attachment record as consumed by `_rewrite_attachment_urls`. -/
structure AttachmentRec where
  download_url : String
  local_path : String
deriving DecidableEq, Repr

/-- `attachments/<local filename>`, the replacement text. -/
def att_local_ref (a : AttachmentRec) : List Char :=
  "attachments/".data ++ path_name a.local_path

/-- `parsed_url.path` with any query stripped (`clean_path`). -/
def att_clean_path (a : AttachmentRec) : List Char :=
  (break1 '?' (py_urlparse a.download_url).path).1

/-- Variant 1: the absolute URL without its query. -/
def att_absolute (a : AttachmentRec) : List Char :=
  (break1 '?' a.download_url.data).1

/-- Variant 2: the path with the `/wiki` prefix. -/
def att_wiki_path (a : AttachmentRec) : List Char :=
  if "/wiki".data.isPrefixOf (att_clean_path a) then att_clean_path a
  else "/wiki".data ++ att_clean_path a

/-- Variant 3: the path without the `/wiki` prefix, with a leading
slash restored. -/
def att_plain_path (a : AttachmentRec) : List Char :=
  let p := if "/wiki".data.isPrefixOf (att_clean_path a) then (att_clean_path a).drop 5
           else att_clean_path a
  match p with
  | '/' :: _ => p
  | _ => '/' :: p

/-- Variant 4: the same path without its leading slashes. -/
def att_plain_no_slash (a : AttachmentRec) : List Char :=
  (att_plain_path a).dropWhile (fun c => c = '/')

/-- Variant 5's filename: the last `/`-separated piece of the clean
path (possibly empty, as in Python `split('/')[-1]`). -/
def att_file_name (a : AttachmentRec) : List Char :=
  ((split_char '/' (att_clean_path a)).getLast?).getD []

/-- The six substitutions for one attachment, in source order; skipped
entirely when the download URL or local path is empty. -/
def rewrite_one (a : AttachmentRec) (h : List Char) : List Char :=
  if a.download_url.isEmpty || a.local_path.isEmpty then h
  else
    let r := att_local_ref a
    subG (thumbM6 (att_file_name a)) r
      (subG (thumbM5 (att_file_name a)) r
        (subG (litM (att_plain_no_slash a)) r
          (subG (litM (att_plain_path a)) r
            (subG (litM (att_wiki_path a)) r
              (subG (litM (att_absolute a)) r h)))))

/-- `_rewrite_attachment_urls`. -/
def rewrite_attachment_urls (html : String) (atts : List AttachmentRec) : String :=
  if atts.isEmpty then html
  else String.mk (atts.foldl (fun h a => rewrite_one a h) html.data)

/-- One member of the bare-thumbnail occurrence family (variant 5,
relative form): the spine, a run of class characters, a slash and the
filename. -/
def s6_member (fn m : List Char) : List Char := thumbW ++ m ++ '/' :: fn

/-- Decidable recombination-safety of a literal variant `x` against
the replacement text `r`: `x` is non-empty, occurs nowhere in `r`, no
non-empty proper prefix of `x` is a suffix of `r`, no non-empty proper
suffix of `x` is a prefix of `r`, and `r` occurs nowhere in `x`. -/
def lit_ok (x r : List Char) : Bool :=
  !x.isEmpty && !infixB x r && !infixB r x &&
  ((List.range x.length).all (fun k => k = 0 || !suffixB (x.take k) r)) &&
  ((List.range x.length).all (fun k => k = 0 || !(x.drop k).isPrefixOf r))

/-- Does a bare-thumbnail occurrence (for filename `fn`) start at the
head of `s`? -/
def s6_at_head (fn s : List Char) : Bool :=
  thumbW.isPrefixOf s &&
    (let rest := s.drop thumbW.length
     let k := (rest.takeWhile t_class).length
     (List.range (k + 1)).any (fun j => ('/' :: fn).isPrefixOf (rest.drop j)))

/-- Can `u` be extended on the right into a bare-thumbnail member with
a non-empty extension? -/
def s6_ext_right (fn u : List Char) : Bool :=
  u.isPrefixOf thumbW ||
  (thumbW.isPrefixOf u &&
    (let r := u.drop thumbW.length
     (List.range (r.length + 1)).any (fun k =>
       (r.take k).all t_class && (r.drop k).isPrefixOf ('/' :: fn) &&
         r.drop k ≠ '/' :: fn)))

/-- Can `v` be extended on the left into a bare-thumbnail member with
a non-empty extension? -/
def s6_ext_left (fn v : List Char) : Bool :=
  suffixB v ('/' :: fn) ||
  (suffixB ('/' :: fn) v && (v.take (v.length - fn.length - 1)).all t_class)

/-- Decidable recombination-safety of the bare-thumbnail family
against the replacement text `r`: the filename is a non-empty run of
class characters; no member occurs inside `r`; no member can start
strictly inside `r` or at its very start and continue past it; no
member can end inside `r` or exactly at its end; and `r` cannot take
over a member suffix in the spine or filename zones. -/
def s6_safe (fn r : List Char) : Bool :=
  !fn.isEmpty && fn.all t_class &&
  !((List.range (r.length + 1)).any (fun i => s6_at_head fn (r.drop i))) &&
  ((List.range (r.length + 1)).all (fun i => i = r.length || !s6_ext_right fn (r.drop i))) &&
  ((List.range r.length).all (fun i => !s6_ext_left fn (r.take (i + 1)))) &&
  ((List.range thumbW.length).all (fun i =>
    i = 0 || (!(r.isPrefixOf (thumbW.drop i)) && !((thumbW.drop i).isPrefixOf r)))) &&
  ((List.range r.length).all (fun k =>
    k + 1 = r.length || !((r.drop (k + 1)).isPrefixOf ('/' :: fn)))) &&
  !(infixB r ('/' :: fn))

/-- The non-recombination conditions of `lit_ok`, as propositions. -/
def LitSafe (x r : List Char) : Prop :=
  x ≠ [] ∧ ¬ x <:+: r ∧ ¬ r <:+: x ∧
  (∀ k, 0 < k → k < x.length → ¬ x.take k <:+ r) ∧
  (∀ k, 0 < k → k < x.length → ¬ x.drop k <+: r)

/-- The nonempty proper suffixes of bare-thumbnail family members: a
tail of the spine followed by a class run and `/<fn>`, or a tail of
`/<fn>` itself. -/
def SufP (fn p : List Char) : Prop :=
  (∃ i mm, 1 ≤ i ∧ i ≤ thumbW.length ∧ mm.all t_class = true ∧
    p = thumbW.drop i ++ mm ++ '/' :: fn) ∨
  (∃ t, 1 ≤ t ∧ t ≤ fn.length ∧ p = ('/' :: fn).drop t)

/-- The non-recombination conditions of `s6_safe`, as propositions. -/
def S6Safe (fn r : List Char) : Prop :=
  fn ≠ [] ∧ fn.all t_class = true ∧
  (∀ i, i ≤ r.length → s6_at_head fn (r.drop i) = false) ∧
  (∀ i, i < r.length → s6_ext_right fn (r.drop i) = false) ∧
  (∀ i, i < r.length → s6_ext_left fn (r.take (i + 1)) = false) ∧
  (∀ i, 0 < i → i < thumbW.length → ¬ r <+: thumbW.drop i ∧ ¬ thumbW.drop i <+: r) ∧
  (∀ j, 1 ≤ j → j < r.length → ¬ r.drop j <+: ('/' :: fn)) ∧
  ¬ r <:+: ('/' :: fn)

/-! ### Spec-side definitions (for refinement claims)

These follow the specification's words, to be compared against the
definitions translated from the source. -/

/-- Admission as the spec states it: the dedup checks are performed on
`clean_url(u)` (the source checks the raw `u`; see the C4
counterexample). -/
def should_download_claimed (cfg : CrawlerConfig) (downloaded_urls active_downloads : List String)
    (url : String) (depth : Nat) : Prop :=
  depth ≤ cfg.max_depth ∧
  normalize_url url ∉ downloaded_urls ∧
  normalize_url url ∉ active_downloads ∧
  (cfg.base_domain = "" ∨ cfg.base_domain.data <:+: (py_urlparse url).netloc) ∧
  (∀ p ∈ cfg.exclude_patterns, p url = false) ∧
  (cfg.valid_url_patterns = [] ∨ ∃ p ∈ cfg.valid_url_patterns, p url = true)

/-- Admission as the source implements it: identical except that the
raw `url` is looked up in the completed and active sets. -/
def should_download_amended (cfg : CrawlerConfig)
    (downloaded_urls active_downloads : List String) (url : String) (depth : Nat) : Prop :=
  depth ≤ cfg.max_depth ∧
  url ∉ downloaded_urls ∧
  url ∉ active_downloads ∧
  (cfg.base_domain = "" ∨ cfg.base_domain.data <:+: (py_urlparse url).netloc) ∧
  (∀ p ∈ cfg.exclude_patterns, p url = false) ∧
  (cfg.valid_url_patterns = [] ∨ ∃ p ∈ cfg.valid_url_patterns, p url = true)

/-- Normalization as the spec states it: `clean_url(u)` keeps
everything but the fragment, i.e. equals `u` with `#fragment`
removed. -/
def clean_url_claimed (url : String) : String := String.mk (break1 '#' url.data).1

/-- First capture of a pattern list, trying each in order. -/
def first_capture (pats : List (List Char → Option (List Char))) (url : String) :
    Option String :=
  match pats with
  | [] => none
  | p :: ps =>
    match p url.data with
    | some d => some (String.mk d)
    | none => first_capture ps url

def pat_pages : List Char → Option (List Char) := search_lit_digits "/pages/".data

def pat_pageId : List Char → Option (List Char) := search_lit_digits "pageId=".data

def pat_content : List Char → Option (List Char) := search_lit_digits "/content/".data

def pat_six : List Char → Option (List Char) := search_slash_digits6

/-- Page id as the spec states it: four regexes tried in order
(including `/content/(\d+)`), then the last non-empty path segment,
then the truncated MD5 with a `page_` tag. -/
def page_id_claimed (md5hex : String → String) (url : String) : String :=
  match first_capture [pat_pages, pat_pageId, pat_content, pat_six] url with
  | some pid => pid
  | none =>
    match (path_parts url).getLast? with
    | some lastPart => String.mk lastPart
    | none => "page_" ++ (md5hex url).take 10

/-- Page id as the path mapper implements it: only three regexes — the
`/content/(\d+)` pattern is absent from
`BaseCrawler._extract_page_identifier`. -/
def page_id_amended (md5hex : String → String) (url : String) : String :=
  match first_capture [pat_pages, pat_pageId, pat_six] url with
  | some pid => pid
  | none =>
    match (path_parts url).getLast? with
    | some lastPart => String.mk lastPart
    | none => "page_" ++ (md5hex url).take 10

/-! ### Concrete instances used by witnesses and counterexamples -/

/-- A concrete stand-in for the opaque MD5 hex digest. -/
def md5_c : String → String := fun _ => "d41d8cd98f00b204e980"

/-- A concrete stand-in for the opaque percent-decoder. -/
def unquote_c : String → String := id

/-- A minimal concrete configuration. -/
def cfg_c : CrawlerConfig :=
  { base_domain := "", valid_url_patterns := [], exclude_patterns := [],
    max_depth := 1, start_url := "http://h/start", space_name := "S",
    output_dir := "out", output_format := "markdown" }

/-- Concrete attachment used by the C8 witness. -/
def att_w : AttachmentRec :=
  { download_url := "https://h.example/wiki/download/attachments/123/pic.png",
    local_path := "out/spaces/A/pages/123/attachments/9_pic.png" }

/-- Concrete attachment used by the C8 counterexample: the rewritten
reference recombines with the following text. -/
def att_cx : AttachmentRec :=
  { download_url := "https://h/wiki/download/attachments/1/f",
    local_path := "x/10_d" }

/-- A store holding one pending URL. -/
def st_p : Store := (add_discovered_url empty_store "http://h/p" "http://h/p" 0 none).1

/-- The row of `st_p` after a failed worker: used by the C2 witness. -/
def row_f : DiscoveredRow :=
  { url := "http://h/p", clean_url := "http://h/p", depth := 0, status := .failed,
    retry_count := 1, error_message := some "timeout", parent_url := none }

/-! ### Invariant predicates used by the theorems -/

/-- Every `url` value occurs in at most one `discovered_urls` row. -/
def urls_unique (s : Store) : Prop := ∀ u, count_url s u ≤ 1

/-- All rows have `url = clean_url`. -/
def raw_eq_clean (s : Store) : Prop := ∀ r ∈ s.discovered, r.url = r.clean_url

/-- Auxiliary invariant: document rows are inserted with
`url = clean_url` (`mark_url_completed` passes the clean URL twice). -/
def docs_url_eq_clean (s : Store) : Prop := ∀ d ∈ s.documents, d.url = d.clean_url

def store_doc_inv (s : Store) : Prop := docs_url_eq_clean s ∧ doc_iff_completed s

/-! ## Theorems -/

/-! ### Store uniqueness (claim C1) -/

theorem urls_unique_add (s : Store) (url clean : String) (d : Nat) (p : Option String)
    (h : urls_unique s) : urls_unique (add_discovered_url s url clean d p).1 := by
  intro u
  unfold add_discovered_url
  by_cases hany : s.discovered.any (fun r => r.url = url)
  · simpa [hany] using h u
  · simp only [hany, Bool.false_eq_true, if_false]
    unfold count_url
    simp only [List.countP_append]
    rcases Classical.em (u = url) with h2 | h2
    · subst h2
      have hzero : s.discovered.countP (fun r => decide (r.url = u)) = 0 := by
        rw [List.countP_eq_zero]
        intro r hr hd
        exact hany (List.any_eq_true.mpr ⟨r, hr, hd⟩)
      have hone : List.countP (fun r => decide (r.url = u))
          [({ url := u, clean_url := clean, depth := d, status := .pending,
              retry_count := 0, error_message := none, parent_url := p } : DiscoveredRow)] ≤ 1 :=
        le_trans (List.countP_le_length _) (by simp)
      omega
    · have hzero : List.countP (fun r => decide (r.url = u))
          [({ url := url, clean_url := clean, depth := d, status := .pending,
              retry_count := 0, error_message := none, parent_url := p } : DiscoveredRow)] = 0 := by
        rw [List.countP_eq_zero]
        intro r hr
        simp only [List.mem_singleton] at hr
        subst hr
        simpa using fun hc => h2 hc.symm
      have := h u
      unfold count_url at this
      omega

theorem urls_unique_batch (d : List (String × String × Nat × Option String)) :
    ∀ s : Store, urls_unique s → urls_unique (add_discovered_urls_batch s d).1 := by
  induction d with
  | nil => intro s h; simpa [add_discovered_urls_batch] using h
  | cons x rest ih =>
    intro s h
    obtain ⟨url, clean, dep, par⟩ := x
    simpa [add_discovered_urls_batch] using
      ih _ (urls_unique_add s url clean dep par h)

theorem urls_unique_run (op : AdmitOp) (s : Store) (h : urls_unique s) :
    urls_unique (run_admit_op s op) := by
  cases op with
  | admitOne url clean d p => exact urls_unique_add s url clean d p h
  | admitBatch d => exact urls_unique_batch d s h

theorem raw_eq_clean_add (s : Store) (url clean : String) (d : Nat) (p : Option String)
    (hc : url = clean) (h : raw_eq_clean s) :
    raw_eq_clean (add_discovered_url s url clean d p).1 := by
  intro r hr
  unfold add_discovered_url at hr
  by_cases hany : s.discovered.any (fun r => r.url = url)
  · simp only [hany] at hr
    exact h r hr
  · simp only [hany, Bool.false_eq_true, if_false, List.mem_append, List.mem_singleton] at hr
    rcases hr with hr | hr
    · exact h r hr
    · subst hr; simpa using hc

theorem raw_eq_clean_batch (d : List (String × String × Nat × Option String))
    (hd : ∀ x ∈ d, x.1 = x.2.1) :
    ∀ s : Store, raw_eq_clean s → raw_eq_clean (add_discovered_urls_batch s d).1 := by
  induction d with
  | nil => intro s h; simpa [add_discovered_urls_batch] using h
  | cons x rest ih =>
    intro s h
    obtain ⟨url, clean, dep, par⟩ := x
    have h1 : url = clean := hd (url, clean, dep, par) (by simp)
    have h2 : ∀ x ∈ rest, x.1 = x.2.1 := fun x hx => hd x (by simp [hx])
    simpa [add_discovered_urls_batch] using
      ih h2 _ (raw_eq_clean_add s url clean dep par h1 h)

theorem raw_eq_clean_run (op : AdmitOp) (hop : admit_raw_is_clean op) (s : Store)
    (h : raw_eq_clean s) : raw_eq_clean (run_admit_op s op) := by
  cases op with
  | admitOne url clean d p => exact raw_eq_clean_add s url clean d p hop h
  | admitBatch d => exact raw_eq_clean_batch d hop s h

theorem count_clean_eq_count_url (s : Store) (h : raw_eq_clean s) (c : String) :
    count_clean s c = count_url s c := by
  unfold count_clean count_url
  apply List.countP_congr
  intro r hr
  simp [h r hr]

theorem run_admits_inv (ops : List AdmitOp) :
    ∀ s : Store, urls_unique s → raw_eq_clean s → (∀ op ∈ ops, admit_raw_is_clean op) →
    urls_unique (run_admits ops s) ∧ raw_eq_clean (run_admits ops s) := by
  induction ops with
  | nil => intro s h1 h2 _; exact ⟨h1, h2⟩
  | cons op rest ih =>
    intro s h1 h2 hall
    have hop : admit_raw_is_clean op := hall op (by simp)
    have hrest : ∀ o ∈ rest, admit_raw_is_clean o := fun o ho => hall o (by simp [ho])
    simpa [run_admits] using
      ih (run_admit_op s op) (urls_unique_run op s h1) (raw_eq_clean_run op hop s h2) hrest

theorem run_admits_unique (ops : List AdmitOp) :
    ∀ s : Store, urls_unique s → urls_unique (run_admits ops s) := by
  induction ops with
  | nil => intro s h; exact h
  | cons op rest ih =>
    intro s h
    simpa [run_admits] using ih (run_admit_op s op) (urls_unique_run op s h)

/-- Claim C1, corrected.  The `UNIQUE` constraint of `discovered_urls`
is on the raw `url` column, so after any serialized trace of
`add_discovered_url` / `add_discovered_urls_batch` calls each raw URL
has at most one row; the clean-URL bound additionally needs every call
to pass the clean URL for both arguments (which the counterexample
shows the engine does not always do). -/
theorem admission_dedup (ops : List AdmitOp) (u c : String) :
    count_url (run_admits ops empty_store) u ≤ 1 ∧
    ((∀ op ∈ ops, admit_raw_is_clean op) →
      count_clean (run_admits ops empty_store) c ≤ 1) := by
  constructor
  · exact run_admits_unique ops empty_store (fun _ => by simp [count_url, empty_store]) u
  · intro hall
    have h := run_admits_inv ops empty_store
      (fun _ => by simp [count_url, empty_store])
      (fun r hr => by simp [empty_store] at hr) hall
    rw [count_clean_eq_count_url _ h.2]
    exact h.1 c

/-- Witness for `admission_dedup` at a concrete two-call trace whose
calls all pass `url = clean_url`. -/
theorem admission_dedup_witness :
    count_clean (run_admits
      [.admitOne "http://a/p" "http://a/p" 0 none,
       .admitOne "http://a/p" "http://a/p" 1 none] empty_store) "http://a/p" ≤ 1 :=
  (admission_dedup _ "http://a/p" "http://a/p").2 (by
    intro op hop
    simp only [List.mem_cons, List.not_mem_nil, or_false] at hop
    rcases hop with h | h <;> subst h <;> simp [admit_raw_is_clean])

/-- Claim C1 as stated is false: two admissions with distinct raw URLs
but the same clean URL leave two rows with that clean URL. -/
theorem admission_dedup_counterexample :
    count_clean (run_admits
      [.admitOne "http://a/p#1" "http://a/p" 0 none,
       .admitOne "http://a/p#2" "http://a/p" 0 none] empty_store) "http://a/p" = 2 ∧
    ¬ count_clean (run_admits
      [.admitOne "http://a/p#1" "http://a/p" 0 none,
       .admitOne "http://a/p#2" "http://a/p" 0 none] empty_store) "http://a/p" ≤ 1 := by
  constructor <;> decide

/-! ### Idempotence of `mark_url_completed` (claim C10) -/

theorem upsert_document_idem (docs : List DocumentRow) (row : DocumentRow) :
    upsert_document (upsert_document docs row) row = upsert_document docs row := by
  unfold upsert_document
  rw [List.filter_append]
  have h1 : (docs.filter (fun d => d.url ≠ row.url)).filter (fun d => d.url ≠ row.url) =
      docs.filter (fun d => d.url ≠ row.url) := by
    rw [List.filter_filter]
    apply List.filter_congr
    intro d _
    simp [Bool.and_self]
  have h2 : [row].filter (fun d => d.url ≠ row.url) = [] := by simp
  rw [h1, h2, List.append_nil]

theorem upsert_mapping_idem (maps : List MappingRow) (row : MappingRow) :
    upsert_mapping (upsert_mapping maps row) row = upsert_mapping maps row := by
  unfold upsert_mapping
  rw [List.filter_append]
  have h1 : (maps.filter (fun m => m.clean_url ≠ row.clean_url)).filter
      (fun m => m.clean_url ≠ row.clean_url) =
      maps.filter (fun m => m.clean_url ≠ row.clean_url) := by
    rw [List.filter_filter]
    apply List.filter_congr
    intro d _
    simp [Bool.and_self]
  have h2 : [row].filter (fun m => m.clean_url ≠ row.clean_url) = [] := by simp
  rw [h1, h2, List.append_nil]

theorem complete_status_map_idem (l : List DiscoveredRow) (clean : String) :
    (l.map (fun r => if r.clean_url = clean then { r with status := .completed } else r)).map
      (fun r => if r.clean_url = clean then { r with status := .completed } else r) =
    l.map (fun r => if r.clean_url = clean then { r with status := .completed } else r) := by
  rw [List.map_map]
  apply List.map_congr_left
  intro r _
  by_cases h : r.clean_url = clean <;> simp [h]

/-- Claim C10: `mark_url_completed` is idempotent, and after a call
there is exactly one document row and one mapping row for the URL —
the `INSERT OR REPLACE` upserts replace rather than duplicate. -/
theorem mark_url_completed_idem (s : Store) (clean lp : String) (fs dt : Option Nat)
    (le : Nat) (dep : Option Nat) :
    mark_url_completed (mark_url_completed s clean lp fs dt le dep) clean lp fs dt le dep =
      mark_url_completed s clean lp fs dt le dep ∧
    (mark_url_completed s clean lp fs dt le dep).documents.countP
      (fun d => d.url = clean) = 1 ∧
    (mark_url_completed s clean lp fs dt le dep).mappings.countP
      (fun m => m.clean_url = clean) = 1 := by
  refine ⟨?_, ?_, ?_⟩
  · unfold mark_url_completed
    simp only [complete_status_map_idem, upsert_document_idem, upsert_mapping_idem]
  · unfold mark_url_completed upsert_document
    rw [List.countP_append]
    have h1 : (s.documents.filter (fun d => d.url ≠ clean)).countP
        (fun d => decide (d.url = clean)) = 0 := by
      rw [List.countP_eq_zero]
      intro d hd
      have := List.of_mem_filter hd
      simpa using this
    simp [h1, List.countP_cons]
  · unfold mark_url_completed upsert_mapping
    rw [List.countP_append]
    have h1 : (s.mappings.filter (fun m => m.clean_url ≠ clean)).countP
        (fun m => decide (m.clean_url = clean)) = 0 := by
      rw [List.countP_eq_zero]
      intro d hd
      have := List.of_mem_filter hd
      simpa using this
    simp [h1, List.countP_cons]

/-! ### Documents-iff-completed (claim C3) -/

theorem store_doc_inv_empty : store_doc_inv empty_store := by
  refine ⟨?_, ?_, ?_⟩ <;> simp [empty_store, docs_url_eq_clean, doc_iff_completed]

theorem store_doc_inv_add (s : Store) (url clean : String) (d : Nat) (p : Option String)
    (h : store_doc_inv s) : store_doc_inv (add_discovered_url s url clean d p).1 := by
  obtain ⟨hu, hfwd, hbwd⟩ := h
  unfold add_discovered_url
  by_cases hany : s.discovered.any (fun r => r.url = url)
  · simpa [hany] using ⟨hu, hfwd, hbwd⟩
  · simp only [hany, Bool.false_eq_true, if_false]
    refine ⟨hu, ?_, ?_⟩
    · intro doc hd
      obtain ⟨r, hr, h1, h2⟩ := hfwd doc hd
      exact ⟨r, by simp [hr], h1, h2⟩
    · intro r hr hc
      simp only [List.mem_append, List.mem_singleton] at hr
      rcases hr with hr | hr
      · exact hbwd r hr hc
      · subst hr; simp at hc

theorem store_doc_inv_batch (dl : List (String × String × Nat × Option String)) :
    ∀ s : Store, store_doc_inv s → store_doc_inv (add_discovered_urls_batch s dl).1 := by
  induction dl with
  | nil => intro s h; simpa [add_discovered_urls_batch] using h
  | cons x rest ih =>
    intro s h
    obtain ⟨url, clean, dep, par⟩ := x
    simpa [add_discovered_urls_batch] using
      ih _ (store_doc_inv_add s url clean dep par h)

theorem store_doc_inv_downloading (s : Store) (clean : String)
    (h : store_doc_inv s) : store_doc_inv (mark_url_downloading s clean).1 := by
  obtain ⟨hu, hfwd, hbwd⟩ := h
  unfold mark_url_downloading
  refine ⟨hu, ?_, ?_⟩
  · intro doc hd
    obtain ⟨r, hr, h1, h2⟩ := hfwd doc hd
    refine ⟨r, ?_, h1, h2⟩
    have : (if r.clean_url = clean && r.status = .pending then
        { r with status := .downloading } else r) = r := by
      simp [h2]
    exact this ▸ List.mem_map_of_mem _ hr
  · intro r' hr' hc
    simp only [List.mem_map] at hr'
    obtain ⟨r, hr, hfr⟩ := hr'
    by_cases hcond : r.clean_url = clean && r.status = .pending
    · rw [if_pos hcond] at hfr
      subst hfr
      simp at hc
    · rw [if_neg hcond] at hfr
      subst hfr
      exact hbwd r hr hc

theorem store_doc_inv_completed (s : Store) (clean lp : String) (fs dt : Option Nat)
    (le : Nat) (dep : Option Nat) (hg : ∃ r ∈ s.discovered, r.clean_url = clean)
    (h : store_doc_inv s) :
    store_doc_inv (mark_url_completed s clean lp fs dt le dep) := by
  obtain ⟨hu, hfwd, hbwd⟩ := h
  unfold mark_url_completed upsert_document
  refine ⟨?_, ?_, ?_⟩
  · intro doc hd
    simp only [List.mem_append, List.mem_singleton, List.mem_filter] at hd
    rcases hd with ⟨hd, _⟩ | hd
    · exact hu doc hd
    · subst hd; rfl
  · intro doc hd
    simp only [List.mem_append, List.mem_singleton, List.mem_filter] at hd
    rcases hd with ⟨hd, _⟩ | hd
    · obtain ⟨r, hr, h1, h2⟩ := hfwd doc hd
      by_cases hc : r.clean_url = clean
      · refine ⟨{ r with status := .completed }, ?_, by simpa using h1, rfl⟩
        have : (if r.clean_url = clean then { r with status := .completed } else r) =
            { r with status := .completed } := by rw [if_pos hc]
        exact this ▸ List.mem_map_of_mem _ hr
      · refine ⟨r, ?_, h1, h2⟩
        have : (if r.clean_url = clean then { r with status := .completed } else r) = r := by
          rw [if_neg hc]
        exact this ▸ List.mem_map_of_mem _ hr
    · subst hd
      obtain ⟨r, hr, hc⟩ := hg
      refine ⟨{ r with status := .completed }, ?_, by simpa using hc, rfl⟩
      have : (if r.clean_url = clean then { r with status := .completed } else r) =
          { r with status := .completed } := by rw [if_pos hc]
      exact this ▸ List.mem_map_of_mem _ hr
  · intro r' hr' hc'
    simp only [List.mem_map] at hr'
    obtain ⟨r, hr, hfr⟩ := hr'
    by_cases hc : r.clean_url = clean
    · refine ⟨_, List.mem_append_right _ (List.mem_singleton_self _), ?_⟩
      have : r'.clean_url = clean := by
        subst hfr
        simp only [if_pos hc]
        exact hc
      simp [this]
    · have hr'r : r' = r := by rw [if_neg hc] at hfr; exact hfr.symm
      subst hr'r
      obtain ⟨doc, hdoc, hdc⟩ := hbwd r' hr hc'
      refine ⟨doc, ?_, hdc⟩
      simp only [List.mem_append, List.mem_filter]
      left
      refine ⟨hdoc, ?_⟩
      have : doc.url = doc.clean_url := hu doc hdoc
      simp only [this, hdc]
      simpa using hc

theorem store_doc_inv_failed (s : Store) (clean : String) (err : Option String)
    (hg : ∀ r ∈ s.discovered, r.clean_url = clean → r.status ≠ .completed)
    (h : store_doc_inv s) : store_doc_inv (mark_url_failed s clean err).1 := by
  obtain ⟨hu, hfwd, hbwd⟩ := h
  unfold mark_url_failed
  refine ⟨hu, ?_, ?_⟩
  · intro doc hd
    obtain ⟨r, hr, h1, h2⟩ := hfwd doc hd
    have hc : r.clean_url ≠ clean := fun hc => hg r hr hc h2
    refine ⟨r, ?_, h1, h2⟩
    have : (if r.clean_url = clean then
        { r with status := .failed, error_message := err,
                 retry_count := r.retry_count + 1 } else r) = r := by
      rw [if_neg hc]
    exact this ▸ List.mem_map_of_mem _ hr
  · intro r' hr' hc'
    simp only [List.mem_map] at hr'
    obtain ⟨r, hr, hfr⟩ := hr'
    by_cases hc : r.clean_url = clean
    · rw [if_pos hc] at hfr
      subst hfr
      simp at hc'
    · rw [if_neg hc] at hfr
      subst hfr
      exact hbwd r hr hc'

theorem store_doc_inv_reachable (s : Store) (h : StoreReachable s) : store_doc_inv s := by
  induction h with
  | init => exact store_doc_inv_empty
  | admitOne s url clean depth parent _ ih => exact store_doc_inv_add s url clean depth parent ih
  | admitBatch s d _ ih => exact store_doc_inv_batch d s ih
  | downloading s clean _ ih => exact store_doc_inv_downloading s clean ih
  | completed s clean lp fs dt le dep _ hg ih =>
    exact store_doc_inv_completed s clean lp fs dt le dep hg ih
  | failed s clean err _ hg ih => exact store_doc_inv_failed s clean err hg ih
  | reset s _ => exact store_doc_inv_empty

/-- Claim C3, corrected: in every store state reachable through the
guarded lifecycle (completion of a present URL, failure of a URL with
no completed row), a document row exists for a clean URL exactly when
a discovered row for it is `completed`.  The unguarded operations the
original claim also covers break the equivalence; see the
counterexample. -/
theorem doc_iff_completed_reachable (s : Store) (h : StoreReachable s) :
    doc_iff_completed s :=
  (store_doc_inv_reachable s h).2

/-- Witness for `doc_iff_completed_reachable`: admit then complete one
URL. -/
theorem doc_iff_completed_witness :
    doc_iff_completed (mark_url_completed
      (add_discovered_url empty_store "http://a/p" "http://a/p" 0 none).1
      "http://a/p" "out/p" none none 0 none) :=
  doc_iff_completed_reachable _
    (StoreReachable.completed _ _ _ _ _ _ _
      (StoreReachable.admitOne _ _ _ _ _ StoreReachable.init)
      (by decide))

/-- Claim C3 as stated is false: `mark_url_failed` after completion
keeps the document row while the discovered row becomes `failed`. -/
theorem doc_iff_completed_counterexample :
    ¬ doc_iff_completed (mark_url_failed (mark_url_completed
      (add_discovered_url empty_store "http://a/p" "http://a/p" 0 none).1
      "http://a/p" "out/p" none none 0 none) "http://a/p" none).1 := by
  unfold doc_iff_completed
  decide

/-! ### Admission filter (claim C4) -/

theorem infixB_iff (needle : List Char) : ∀ hay : List Char,
    infixB needle hay = true ↔ needle <:+: hay := by
  intro hay
  induction hay with
  | nil =>
    simp only [infixB, List.isEmpty_iff]
    constructor
    · intro h; simp [h]
    · intro h; exact List.eq_nil_of_infix_nil h
  | cons c t ih =>
    simp only [infixB, Bool.or_eq_true, List.isPrefixOf_iff_prefix, ih,
      List.infix_cons_iff]

theorem contains_iff_mem (l : List String) (x : String) :
    l.contains x = true ↔ x ∈ l := by
  simp [List.contains_iff_exists_mem_beq, beq_iff_eq, eq_comm]

/-- Claim C4, corrected: `should_download` returns true iff the depth
bound, the domain test, the exclude patterns and the valid patterns
all pass and the raw URL — not its normalization, as the claim states
— is in neither the downloaded set nor the active set. -/
theorem string_eq_empty_iff (s : String) : s = "" ↔ s.data = [] := by
  constructor
  · intro h; simp [h]
  · intro h
    cases s with
    | mk d => cases h; rfl

theorem should_download_iff (cfg : CrawlerConfig) (downloaded active : List String)
    (url : String) (depth : Nat) :
    should_download cfg downloaded active url depth = true ↔
      should_download_amended cfg downloaded active url depth := by
  unfold should_download should_download_amended
  split_ifs with h1 h2 h3 h4 h5 h6
  · simp only [Bool.false_eq_true, false_iff]
    intro h
    exact absurd h.1 (by omega)
  · simp only [Bool.false_eq_true, false_iff]
    intro h
    exact h.2.1 ((contains_iff_mem _ _).mp h2)
  · simp only [Bool.false_eq_true, false_iff]
    intro h
    exact h.2.2.1 ((contains_iff_mem _ _).mp h3)
  · simp only [Bool.false_eq_true, false_iff]
    intro h
    simp only [Bool.and_eq_true, Bool.not_eq_true'] at h4
    rcases h.2.2.2.1 with hd | hd
    · rw [string_eq_empty_iff, ← List.isEmpty_iff] at hd
      exact absurd h4.1 (by simp [hd])
    · rw [← infixB_iff] at hd
      exact absurd hd (by simp [h4.2])
  · simp only [Bool.false_eq_true, false_iff]
    intro h
    simp only [List.any_eq_true] at h5
    obtain ⟨p, hp, hpu⟩ := h5
    have := h.2.2.2.2.1 p hp
    simp [this] at hpu
  · simp only [Bool.false_eq_true, false_iff]
    intro h
    simp only [Bool.and_eq_true, Bool.not_eq_true', List.any_eq_false,
      List.isEmpty_iff] at h6
    rcases h.2.2.2.2.2 with hv | ⟨p, hp, hpu⟩
    · simp [hv] at h6
    · have := h6.2 p hp
      simp [hpu] at this
  · simp only [true_iff]
    refine ⟨by omega, ?_, ?_, ?_, ?_, ?_⟩
    · intro hmem
      exact h2 ((contains_iff_mem _ _).mpr hmem)
    · intro hmem
      exact h3 ((contains_iff_mem _ _).mpr hmem)
    · by_cases hb : cfg.base_domain = ""
      · exact Or.inl hb
      · right
        rw [← infixB_iff]
        by_contra hni
        apply h4
        simp only [Bool.and_eq_true, Bool.not_eq_true']
        refine ⟨?_, by simpa using hni⟩
        rw [string_eq_empty_iff, ← List.isEmpty_iff] at hb
        simpa using fun hc => hb (by simp [hc])
    · intro p hp
      by_contra hpu
      exact h5 (List.any_eq_true.mpr ⟨p, hp, by simpa using hpu⟩)
    · by_cases hv : cfg.valid_url_patterns = []
      · exact Or.inl hv
      · right
        by_contra hnone
        apply h6
        simp only [Bool.and_eq_true, Bool.not_eq_true']
        constructor
        · simpa [List.isEmpty_iff] using hv
        · rw [List.any_eq_false]
          intro p hp
          simp only [Bool.not_eq_true]
          by_contra hpu
          exact hnone ⟨p, hp, by simpa using hpu⟩

/-- Claim C4 as stated is false: a URL carrying a fragment whose
normalization is already downloaded still passes `should_download`,
because the source checks the raw URL against the set. -/
theorem should_download_counterexample :
    should_download cfg_c ["http://h/p"] [] "http://h/p#f" 0 = true ∧
    ¬ should_download_claimed cfg_c ["http://h/p"] [] "http://h/p#f" 0 := by
  constructor
  · decide
  · intro h
    have h2 := h.2.1
    revert h2
    unfold should_download_claimed at h
    decide

/-! ### Path mapper page id (claim C9) -/

/-- Claim C9, corrected: the path mapper tries only the three patterns
`/pages/(\d+)`, `pageId=(\d+)`, `/(\d{6,})` before the path-segment
and MD5 fallbacks; the `/content/(\d+)` regex of the claim appears
only in the API crawler's page-id extraction, whose behaviour is the
second conjunct. -/
theorem page_dir_name_eq (md5hex : String → String)
    (resolve_via_title : String → Option String) (url : String) :
    page_dir_name md5hex url = page_id_amended md5hex url ∧
    extract_page_id resolve_via_title url =
      (match first_capture [pat_pages, pat_pageId, pat_content, pat_six] url with
       | some pid => some pid
       | none => resolve_via_title url) := by
  constructor
  · unfold page_dir_name page_id_amended extract_page_identifier
    cases h1 : search_lit_digits "/pages/".data url.data <;>
      cases h2 : search_lit_digits "pageId=".data url.data <;>
        cases h3 : search_slash_digits6 url.data <;>
          simp [first_capture, pat_pages, pat_pageId, pat_six, h1, h2, h3]
  · unfold extract_page_id
    cases h1 : search_lit_digits "/pages/".data url.data <;>
      cases h2 : search_lit_digits "pageId=".data url.data <;>
        cases h3 : search_lit_digits "/content/".data url.data <;>
          cases h4 : search_slash_digits6 url.data <;>
            simp [first_capture, pat_pages, pat_pageId, pat_content, pat_six, h1, h2, h3, h4]

/-- Claim C9 as stated is false at `/content/12345/extra`: the claimed
procedure captures `12345` via `/content/(\d+)` while the path mapper
falls back to the last path segment `extra`. -/
theorem page_dir_name_counterexample :
    page_dir_name md5_c "http://h/content/12345/extra" = "extra" ∧
    page_id_claimed md5_c "http://h/content/12345/extra" = "12345" ∧
    page_dir_name md5_c "http://h/content/12345/extra" ≠
      page_id_claimed md5_c "http://h/content/12345/extra" := by
  refine ⟨by decide, by decide, by decide⟩

/-! ### Normalization (claim C5) -/

/-- Claim C5 as stated is false on two counts: `normalize_url` drops
the `;params` of the last path segment (not only the fragment), and
`WebCrawler.clean_url` — also a dedup key — drops the query. -/
theorem clean_url_counterexample :
    normalize_url "http://h/a;b?q" = "http://h/a?q" ∧
    normalize_url "http://h/a;b?q" ≠ clean_url_claimed "http://h/a;b?q" ∧
    clean_url "http://h/p?q=1" = "http://h/p" ∧
    clean_url "http://h/p?q=1" ≠ clean_url_claimed "http://h/p?q=1" := by
  refine ⟨by decide, by decide, by decide, by decide⟩

/-! ### Worker error handling (claim C2) -/

theorem mark_url_failed_resolves (st : Store) (c : String) (err : Option String) :
    ∀ r ∈ (mark_url_failed st c err).1.discovered, r.clean_url = c → r.status = .failed := by
  intro r' hr' hc'
  unfold mark_url_failed at hr'
  simp only [List.mem_map] at hr'
  obtain ⟨r, _, hfr⟩ := hr'
  by_cases hc : r.clean_url = c
  · rw [if_pos hc] at hfr; subst hfr; rfl
  · rw [if_neg hc] at hfr; subst hfr; exact absurd hc' hc

theorem mark_url_completed_resolves (st : Store) (c lp : String) (fs dt : Option Nat)
    (le : Nat) (dep : Option Nat) :
    ∀ r ∈ (mark_url_completed st c lp fs dt le dep).discovered, r.clean_url = c →
      r.status = .completed := by
  intro r' hr' hc'
  unfold mark_url_completed at hr'
  simp only [List.mem_map] at hr'
  obtain ⟨r, _, hfr⟩ := hr'
  by_cases hc : r.clean_url = c
  · rw [if_pos hc] at hfr; subst hfr; rfl
  · rw [if_neg hc] at hfr; subst hfr; exact absurd hc' hc

/-- Claim C2, corrected.  First conjunct: a parallel worker that gets
past the duplicate checks always leaves every store row of its clean
URL at `completed` or `failed`, whichever outcome the fetch had
(exception, authentication page, or success).  Second conjunct: the
base worker's `try/except` absorbs any exception into a failure
result with the store untouched — so there, contrary to the claim, a
failed fetch leaves the status unchanged (see the counterexample)
rather than setting `failed`. -/
theorem worker_resolves (unquote : String → String) (cfg : CrawlerConfig) (s : WebState)
    (url : String) (depth : Nat) (o : WebOutcome)
    (h1 : s.downloaded.contains (clean_url url) = false)
    (h2 : s.active.contains (clean_url url) = false) :
    (∀ r ∈ (download_url_parallel unquote cfg s url depth o).store.discovered,
      r.clean_url = clean_url url → r.status = .completed ∨ r.status = .failed) ∧
    (∀ (md5hex : String → String) (cfg2 : CrawlerConfig) (store : Store)
      (downloaded : List String) (u : String) (d : Nat) (e : String),
      process_url_catch md5hex cfg2 store downloaded u d (.error e) =
        (store, downloaded, ⟨false, false, [], some e⟩)) := by
  constructor
  · intro r hr hc
    unfold download_url_parallel at hr
    simp only [h1, h2, Bool.false_eq_true, if_false] at hr
    cases o with
    | exc m =>
      exact Or.inr (mark_url_failed_resolves _ _ _ r hr hc)
    | page auth links fsize dt =>
      by_cases ha : auth = true
      · rw [ha] at hr
        simp only [if_true] at hr
        exact Or.inr (mark_url_failed_resolves _ _ _ r hr hc)
      · rw [Bool.not_eq_true] at ha
        rw [ha] at hr
        simp only [Bool.false_eq_true, if_false] at hr
        exact Or.inl (mark_url_completed_resolves _ _ _ _ _ _ _ r hr hc)
  · intro md5hex cfg2 store downloaded u d e
    rfl

/-- Witness for `worker_resolves`: a pending URL whose fetch raises. -/
theorem worker_resolves_witness :
    ((⟨st_p, [], [], [], []⟩ : WebState).downloaded.contains (clean_url "http://h/p") = false ∧
      (⟨st_p, [], [], [], []⟩ : WebState).active.contains (clean_url "http://h/p") = false) ∧
    (row_f.status = .completed ∨ row_f.status = .failed) :=
  ⟨⟨by decide, by decide⟩,
    (worker_resolves unquote_c cfg_c ⟨st_p, [], [], [], []⟩ "http://h/p" 0 (.exc "timeout")
      (by decide) (by decide)).1 row_f (by decide) (by decide)⟩

/-- Claim C2 as stated is false for `BaseCrawler._process_url`: a
failed fetch returns a failure result but never calls
`mark_url_failed`, so the URL's row stays `pending`. -/
theorem worker_counterexample :
    process_url_catch md5_c cfg_c st_p [] "http://h/p" 0
        (.ok ⟨false, "HTTP 500", false, [], true, 0⟩) =
      (st_p, [], ⟨false, false, [], some "HTTP 500"⟩) ∧
    ∀ r ∈ st_p.discovered, r.status = .pending := by
  constructor
  · rfl
  · decide

/-! ### Space-index fan-out (claim C7) -/

theorem add_links_cons_mem (dl : List String) (parent : String) (nd : Nat)
    (l : String) (ls : List String) (q : List (String × Nat)) (st : Store)
    (h : normalize_url l ∈ dl) :
    add_links dl parent nd (l :: ls) q st = add_links dl parent nd ls q st := by
  simp only [add_links]
  rw [if_pos ((contains_iff_mem dl (normalize_url l)).mpr h)]

theorem add_links_cons_new (dl : List String) (parent : String) (nd : Nat)
    (l : String) (ls : List String) (q : List (String × Nat)) (st : Store)
    (h : normalize_url l ∉ dl) :
    add_links dl parent nd (l :: ls) q st =
      add_links dl parent nd ls (q ++ [(l, nd)])
        (add_discovered_url st l (normalize_url l) nd (some parent)).1 := by
  simp only [add_links]
  rw [if_neg (fun hc => h ((contains_iff_mem dl (normalize_url l)).mp hc))]

theorem add_discovered_url_discovered_mono (s : Store) (url clean : String) (d : Nat)
    (p : Option String) (row : DiscoveredRow) (h : row ∈ s.discovered) :
    row ∈ (add_discovered_url s url clean d p).1.discovered := by
  unfold add_discovered_url
  by_cases hany : s.discovered.any (fun r => r.url = url) <;> simp [hany, h]

theorem add_discovered_url_docs (s : Store) (url clean : String) (d : Nat)
    (p : Option String) :
    (add_discovered_url s url clean d p).1.documents = s.documents ∧
    (add_discovered_url s url clean d p).1.mappings = s.mappings := by
  unfold add_discovered_url
  by_cases hany : s.discovered.any (fun r => r.url = url) <;> simp [hany]

theorem add_links_docs_maps (dl : List String) (parent : String) (nd : Nat) :
    ∀ (ls : List String) (q : List (String × Nat)) (st : Store),
      (add_links dl parent nd ls q st).2.documents = st.documents ∧
      (add_links dl parent nd ls q st).2.mappings = st.mappings := by
  intro ls
  induction ls with
  | nil => intro q st; exact ⟨rfl, rfl⟩
  | cons l rest ih =>
    intro q st
    by_cases h : normalize_url l ∈ dl
    · rw [add_links_cons_mem dl parent nd l rest q st h]
      exact ih q st
    · rw [add_links_cons_new dl parent nd l rest q st h]
      have h2 := ih (q ++ [(l, nd)]) (add_discovered_url st l (normalize_url l) nd (some parent)).1
      have h3 := add_discovered_url_docs st l (normalize_url l) nd (some parent)
      exact ⟨h2.1.trans h3.1, h2.2.trans h3.2⟩

theorem add_links_queue_mono (dl : List String) (parent : String) (nd : Nat) :
    ∀ (ls : List String) (q : List (String × Nat)) (st : Store) (x : String × Nat),
      x ∈ q → x ∈ (add_links dl parent nd ls q st).1 := by
  intro ls
  induction ls with
  | nil => intro q st x hx; exact hx
  | cons l rest ih =>
    intro q st x hx
    by_cases h : normalize_url l ∈ dl
    · rw [add_links_cons_mem dl parent nd l rest q st h]
      exact ih q st x hx
    · rw [add_links_cons_new dl parent nd l rest q st h]
      exact ih _ _ x (by simp [hx])

theorem add_links_store_mono (dl : List String) (parent : String) (nd : Nat) :
    ∀ (ls : List String) (q : List (String × Nat)) (st : Store) (row : DiscoveredRow),
      row ∈ st.discovered → row ∈ (add_links dl parent nd ls q st).2.discovered := by
  intro ls
  induction ls with
  | nil => intro q st row hr; exact hr
  | cons l rest ih =>
    intro q st row hr
    by_cases h : normalize_url l ∈ dl
    · rw [add_links_cons_mem dl parent nd l rest q st h]
      exact ih q st row hr
    · rw [add_links_cons_new dl parent nd l rest q st h]
      exact ih _ _ row (add_discovered_url_discovered_mono st l _ nd (some parent) row hr)

theorem add_links_inv (dl : List String) (parent : String) (nd : Nat) (base : Store) :
    ∀ (ls : List String) (q : List (String × Nat)) (st : Store),
      (∀ row ∈ st.discovered, row ∈ base.discovered ∨ fresh_row_at nd row) →
      ∀ row ∈ (add_links dl parent nd ls q st).2.discovered,
        row ∈ base.discovered ∨ fresh_row_at nd row := by
  intro ls
  induction ls with
  | nil => intro q st hinv row hr; exact hinv row hr
  | cons l rest ih =>
    intro q st hinv
    by_cases h : normalize_url l ∈ dl
    · rw [add_links_cons_mem dl parent nd l rest q st h]
      exact ih q st hinv
    · rw [add_links_cons_new dl parent nd l rest q st h]
      apply ih
      intro row hr
      unfold add_discovered_url at hr
      by_cases hany : st.discovered.any (fun r => r.url = l)
      · exact hinv row (by simpa [hany] using hr)
      · simp only [hany, Bool.false_eq_true, if_false, List.mem_append,
          List.mem_singleton] at hr
        rcases hr with hr | hr
        · exact hinv row hr
        · subst hr
          right
          unfold fresh_row_at
          exact ⟨rfl, rfl, rfl⟩

theorem add_links_covers (dl : List String) (parent : String) (nd : Nat) :
    ∀ (ls : List String) (q : List (String × Nat)) (st : Store) (l : String),
      l ∈ ls → normalize_url l ∉ dl →
      (l, nd) ∈ (add_links dl parent nd ls q st).1 ∧
      ∃ row ∈ (add_links dl parent nd ls q st).2.discovered, row.url = l := by
  intro ls
  induction ls with
  | nil => intro q st l hl; exact absurd hl (List.not_mem_nil l)
  | cons x rest ih =>
    intro q st l hl hnd
    rcases List.mem_cons.mp hl with hx | hx
    · subst hx
      rw [add_links_cons_new dl parent nd l rest q st hnd]
      constructor
      · exact add_links_queue_mono dl parent nd rest _ _ (l, nd) (by simp)
      · have hex : ∃ row ∈ (add_discovered_url st l (normalize_url l) nd
            (some parent)).1.discovered, row.url = l := by
          by_cases hany : st.discovered.any (fun r => r.url = l)
          · obtain ⟨row, hrow, hru⟩ := List.any_eq_true.mp hany
            refine ⟨row, ?_, by simpa using hru⟩
            unfold add_discovered_url
            simp [hany, hrow]
          · exact ⟨{ url := l, clean_url := normalize_url l, depth := nd, status := .pending, retry_count := 0, error_message := none, parent_url := some parent }, by unfold add_discovered_url; simp [hany], rfl⟩
        obtain ⟨row, hrow, hru⟩ := hex
        exact ⟨row, add_links_store_mono dl parent nd rest _ _ row hrow, hru⟩
    · by_cases h : normalize_url x ∈ dl
      · rw [add_links_cons_mem dl parent nd x rest q st h]
        exact ih q st l hx hnd
      · rw [add_links_cons_new dl parent nd x rest q st h]
        exact ih _ _ l hx hnd

/-- Claim C7, corrected: processing a successful space-index outcome
at any depth does not touch the download counter, the document and
mapping tables or the downloaded set, and every returned link whose
normalized form is not already in the downloaded set is enqueued at
depth 0 and present in the store — as a pre-existing row (the
`INSERT OR IGNORE` no-op the original claim overlooks, together with
the downloaded-set filter shown by the counterexample) or as a fresh
pending row at depth 0. -/
theorem space_index_fanout (md5hex : String → String) (cfg : CrawlerConfig)
    (s : EngineState) (url : String) (depth : Nat) (o : FetchSim)
    (hs : o.success = true) (hsave : o.save_ok = true) (hidx : o.is_space_index = true) :
    (engine_apply md5hex cfg s url depth o).downloaded_count = s.downloaded_count ∧
    (engine_apply md5hex cfg s url depth o).store.documents = s.store.documents ∧
    (engine_apply md5hex cfg s url depth o).store.mappings = s.store.mappings ∧
    (engine_apply md5hex cfg s url depth o).downloaded = s.downloaded ∧
    ∀ l ∈ o.links, normalize_url l ∉ s.downloaded →
      (l, 0) ∈ (engine_apply md5hex cfg s url depth o).queue ∧
      ∃ row ∈ (engine_apply md5hex cfg s url depth o).store.discovered,
        row.url = l ∧ (row ∈ s.store.discovered ∨ fresh_row_at 0 row) := by
  have happ : engine_apply md5hex cfg s url depth o =
      if o.links.isEmpty then s
      else
        { queue := (add_links s.downloaded url 0 o.links s.queue s.store).1,
          store := (add_links s.downloaded url 0 o.links s.queue s.store).2,
          downloaded := s.downloaded, downloaded_count := s.downloaded_count,
          failed_count := s.failed_count } := by
    unfold engine_apply process_url
    rw [hs, hsave, hidx]
    by_cases hl : o.links.isEmpty <;> simp [hl]
  by_cases hl : o.links.isEmpty = true
  · rw [happ, if_pos hl]
    refine ⟨rfl, rfl, rfl, rfl, ?_⟩
    intro l hlm
    rw [List.isEmpty_iff] at hl
    rw [hl] at hlm
    exact absurd hlm (List.not_mem_nil l)
  · rw [happ, if_neg hl]
    refine ⟨rfl, (add_links_docs_maps _ _ _ _ _ _).1, (add_links_docs_maps _ _ _ _ _ _).2,
      rfl, ?_⟩
    intro l hlm hnd
    obtain ⟨hq, row, hrow, hru⟩ := add_links_covers s.downloaded url 0 o.links s.queue
      s.store l hlm hnd
    refine ⟨hq, row, hrow, hru, ?_⟩
    exact add_links_inv s.downloaded url 0 s.store o.links s.queue s.store
      (fun r hr => Or.inl hr) row hrow

/-- Witness for `space_index_fanout`: an index at depth 5 fans one new
link out at depth 0. -/
theorem space_index_fanout_witness :
    ((engine_apply md5_c cfg_c ⟨[], empty_store, [], 0, 0⟩ "http://h/idx" 5
        ⟨true, "", true, ["http://h/l"], true, 0⟩).downloaded_count = 0) ∧
    ("http://h/l", 0) ∈ (engine_apply md5_c cfg_c ⟨[], empty_store, [], 0, 0⟩ "http://h/idx" 5
        ⟨true, "", true, ["http://h/l"], true, 0⟩).queue := by
  have h := space_index_fanout md5_c cfg_c ⟨[], empty_store, [], 0, 0⟩ "http://h/idx" 5
    ⟨true, "", true, ["http://h/l"], true, 0⟩ rfl rfl rfl
  refine ⟨h.1, ?_⟩
  exact (h.2.2.2.2 "http://h/l" (by simp) (by decide)).1

/-- Claim C7 as stated is false: a returned link whose normalized form
is already in the downloaded set is neither enqueued nor inserted. -/
theorem space_index_fanout_counterexample :
    (engine_apply md5_c cfg_c ⟨[], empty_store, ["http://h/l"], 0, 0⟩ "http://h/idx" 5
        ⟨true, "", true, ["http://h/l"], true, 0⟩).queue = [] ∧
    (engine_apply md5_c cfg_c ⟨[], empty_store, ["http://h/l"], 0, 0⟩ "http://h/idx" 5
        ⟨true, "", true, ["http://h/l"], true, 0⟩).store.discovered = [] := by
  constructor <;> decide

/-! ### Depth bound (claim C6) -/

theorem mark_url_completed_depth_ok (maxD : Nat) (st : Store) (c lp : String)
    (fs dt : Option Nat) (le : Nat) (h : store_depth_ok maxD st) :
    store_depth_ok maxD (mark_url_completed st c lp fs dt le none) := by
  obtain ⟨hd, hdoc⟩ := h
  constructor
  · intro r hr
    unfold mark_url_completed at hr
    simp only [List.mem_map] at hr
    obtain ⟨r0, hr0, hfr⟩ := hr
    have : r.depth = r0.depth := by
      by_cases hc : r0.clean_url = c
      · rw [if_pos hc] at hfr; subst hfr; rfl
      · rw [if_neg hc] at hfr; subst hfr; rfl
    rw [this]
    exact hd r0 hr0
  · intro d hdm n hn
    unfold mark_url_completed upsert_document at hdm
    simp only [List.mem_append, List.mem_singleton, List.mem_filter] at hdm
    rcases hdm with ⟨hdm, _⟩ | hdm
    · exact hdoc d hdm n hn
    · subst hdm; simp at hn

theorem add_links_depth_ok (maxD : Nat) (dl : List String) (parent : String) (nd : Nat)
    (hnd : nd ≤ maxD) :
    ∀ (ls : List String) (q : List (String × Nat)) (st : Store),
      store_depth_ok maxD st → store_depth_ok maxD (add_links dl parent nd ls q st).2 := by
  intro ls
  induction ls with
  | nil => intro q st h; exact h
  | cons l rest ih =>
    intro q st h
    by_cases hc : normalize_url l ∈ dl
    · rw [add_links_cons_mem dl parent nd l rest q st hc]
      exact ih q st h
    · rw [add_links_cons_new dl parent nd l rest q st hc]
      apply ih
      obtain ⟨hd, hdoc⟩ := h
      unfold add_discovered_url
      by_cases hany : st.discovered.any (fun r => r.url = l)
      · simpa [hany] using ⟨hd, hdoc⟩
      · simp only [hany, Bool.false_eq_true, if_false]
        refine ⟨?_, hdoc⟩
        intro r hr
        simp only [List.mem_append, List.mem_singleton] at hr
        rcases hr with hr | hr
        · exact hd r hr
        · subst hr; exact hnd

theorem engine_apply_depth_ok (md5hex : String → String) (cfg : CrawlerConfig)
    (s : EngineState) (url : String) (depth : Nat) (o : FetchSim)
    (h : store_depth_ok cfg.max_depth s.store) :
    store_depth_ok cfg.max_depth (engine_apply md5hex cfg s url depth o).store := by
  unfold engine_apply process_url
  by_cases hs : o.success = true
  · rw [hs]
    by_cases hsave : o.save_ok = true
    · rw [hsave]
      simp only [Bool.not_true, Bool.false_eq_true, if_false]
      by_cases hidx : o.is_space_index = true
      · rw [hidx]
        simp only [if_true]
        by_cases hadd : (!o.links.isEmpty && (true || decide (depth < cfg.max_depth))) = true
        · simp only [hadd, if_true]
          exact add_links_depth_ok cfg.max_depth s.downloaded url 0 (Nat.zero_le _)
            o.links s.queue s.store h
        · simp only [hadd, Bool.false_eq_true, if_false]
          exact h
      · rw [Bool.not_eq_true] at hidx
        rw [hidx]
        simp only [Bool.false_eq_true, if_false]
        have hcomp := mark_url_completed_depth_ok cfg.max_depth s.store
          (normalize_url url) (generate_local_path md5hex cfg url) (some o.file_size) none 0 h
        by_cases hadd : (!o.links.isEmpty && (false || decide (depth < cfg.max_depth))) = true
        · simp only [hadd, if_true]
          have hlt : depth < cfg.max_depth := by
            simp only [Bool.and_eq_true, Bool.false_or, decide_eq_true_eq] at hadd
            exact hadd.2
          exact add_links_depth_ok cfg.max_depth _ url (depth + 1) (by omega)
            o.links s.queue _ hcomp
        · simp only [hadd, Bool.false_eq_true, if_false]
          exact hcomp
    · rw [Bool.not_eq_true] at hsave
      rw [hsave]
      simpa using h
  · rw [Bool.not_eq_true] at hs
    rw [hs]
    simpa using h

/-- Claim C6: in every reachable engine state every discovered row has
depth at most `max_depth` (space-index fan-out inserts at depth 0,
ordinary fan-out at `depth + 1` behind the `depth < max_depth` gate),
and every document row carrying a depth obeys the same bound — the
base worker stores no depth (`None`) on completion. -/
theorem engine_depth_bound (md5hex : String → String) (cfg : CrawlerConfig)
    (s : EngineState) (h : EngineReach md5hex cfg s) :
    store_depth_ok cfg.max_depth s.store := by
  induction h with
  | fresh =>
    unfold fresh_state add_discovered_url
    constructor
    · intro r hr
      simp only [empty_store] at hr
      simp only [List.any_nil, Bool.false_eq_true, if_false, List.nil_append,
        List.mem_singleton] at hr
      subst hr
      exact Nat.zero_le _
    · intro d hd
      simp only [empty_store] at hd
      simp only [List.any_nil, Bool.false_eq_true, if_false] at hd
      exact absurd hd (List.not_mem_nil d)
  | resume st hst => exact hst
  | step s s' _ hstep ih =>
    cases hstep with
    | skip u d rest hq hsd => exact ih
    | run u d rest o hq hsd => exact engine_apply_depth_ok md5hex cfg _ u d o ih

/-- Witness for `engine_depth_bound` at the fresh start state. -/
theorem engine_depth_bound_witness :
    store_depth_ok cfg_c.max_depth (fresh_state cfg_c).store :=
  engine_depth_bound md5_c cfg_c (fresh_state cfg_c) EngineReach.fresh

/-! ### Parser characterization (claim C5, amended) -/

theorem break1_not_mem (c : Char) : ∀ l : List Char, c ∉ l → break1 c l = (l, none) := by
  intro l
  induction l with
  | nil => intro _; rfl
  | cons x xs ih =>
    intro h
    unfold break1
    have hx : ¬ x = c := fun hc => h (by simp [hc])
    simp only [hx, if_false]
    rw [ih (fun hc => h (by simp [hc]))]

theorem break1_append (c : Char) (a b : List Char) (h : c ∉ a) :
    break1 c (a ++ c :: b) = (a, some b) := by
  induction a with
  | nil => simp [break1]
  | cons x xs ih =>
    have hx : ¬ x = c := fun hc => h (by simp [hc])
    simp only [List.cons_append]
    unfold break1
    simp only [hx, if_false]
    rw [ih (fun hc => h (by simp [hc]))]

theorem takeWhile_append_all (p : Char → Bool) (a : List Char)
    (h : ∀ x ∈ a, p x = true) :
    ∀ b, (a ++ b).takeWhile p = a ++ b.takeWhile p := by
  induction a with
  | nil => intro b; simp
  | cons x xs ih =>
    intro b
    simp only [List.cons_append, List.takeWhile_cons, h x (by simp), if_true]
    rw [ih (fun y hy => h y (by simp [hy]))]

theorem dropWhile_append_all (p : Char → Bool) (a : List Char)
    (h : ∀ x ∈ a, p x = true) :
    ∀ b, (a ++ b).dropWhile p = b.dropWhile p := by
  induction a with
  | nil => intro b; simp
  | cons x xs ih =>
    intro b
    simp only [List.cons_append, List.dropWhile_cons, h x (by simp), if_true]
    exact ih (fun y hy => h y (by simp [hy])) b

theorem split_params_no_semi (p : List Char) (h : ';' ∉ p) : split_params p = (p, []) := by
  unfold split_params
  by_cases hc : p.contains '/'
  · simp only [hc, if_true]
    have hsub : ';' ∉ (p.reverse.takeWhile (fun c => c ≠ '/')).reverse := by
      intro hmem
      apply h
      have := List.mem_reverse.mp hmem
      have := (List.takeWhile_sublist _).subset this
      exact List.mem_reverse.mp this
    rw [break1_not_mem ';' _ hsub]
  · simp only [hc, Bool.false_eq_true, if_false]
    rw [break1_not_mem ';' p h]

theorem py_urlparse_well_formed (sch nl pth q f : List Char)
    (hs0 : sch ≠ [])
    (hs : ∀ c ∈ sch, c.isAlpha = true ∧ c.toLower = c ∧ control_or_space c = false ∧
      tab_cr_lf c = false ∧ is_ascii c = true ∧ scheme_char c = true ∧ c ≠ ':')
    (hn : ∀ c ∈ nl, netloc_stop c = false ∧ tab_cr_lf c = false)
    (hp0 : pth = [] ∨ ∃ t, pth = '/' :: t)
    (hp : ∀ c ∈ pth, c ≠ '#' ∧ c ≠ '?' ∧ c ≠ ';' ∧ tab_cr_lf c = false)
    (hq : ∀ c ∈ q, c ≠ '#' ∧ tab_cr_lf c = false)
    (hf : ∀ c ∈ f, tab_cr_lf c = false) :
    py_urlparse_l (sch ++ ':' :: '/' :: '/' :: (nl ++ pth ++
        (if q = [] then [] else '?' :: q) ++ (if f = [] then [] else '#' :: f))) =
      ⟨sch, nl, pth, [], q, f⟩ := by
  obtain ⟨c0, sch', hsch⟩ := List.exists_cons_of_ne_nil hs0
  set qp : List Char := if q = [] then [] else '?' :: q with hqp
  set fp : List Char := if f = [] then [] else '#' :: f with hfp
  set url : List Char := sch ++ ':' :: '/' :: '/' :: (nl ++ pth ++ qp ++ fp) with hurl
  have hqp_mem : ∀ c ∈ qp, (c = '?' ∨ c ∈ q) := by
    intro c hc
    rw [hqp] at hc
    by_cases hqe : q = []
    · simp [hqe] at hc
    · simp only [hqe, if_false, List.mem_cons] at hc
      exact hc
  have hfp_mem : ∀ c ∈ fp, (c = '#' ∨ c ∈ f) := by
    intro c hc
    rw [hfp] at hc
    by_cases hfe : f = []
    · simp [hfe] at hc
    · simp only [hfe, if_false, List.mem_cons] at hc
      exact hc
  have hdrop : url.dropWhile control_or_space = url := by
    rw [hurl, hsch]
    simp only [List.cons_append, List.dropWhile_cons]
    rw [(hs c0 (by simp [hsch])).2.2.1]
    simp
  have hall_not_tcl : ∀ c ∈ url, tab_cr_lf c = false := by
    intro c hc
    rw [hurl] at hc
    rcases List.mem_append.mp hc with hc | hc
    · exact (hs c hc).2.2.2.1
    rcases List.mem_cons.mp hc with hc | hc
    · subst hc; rfl
    rcases List.mem_cons.mp hc with hc | hc
    · subst hc; rfl
    rcases List.mem_cons.mp hc with hc | hc
    · subst hc; rfl
    rcases List.mem_append.mp hc with hc | hc
    · rcases List.mem_append.mp hc with hc | hc
      · rcases List.mem_append.mp hc with hc | hc
        · exact (hn c hc).2
        · exact (hp c hc).2.2.2
      · rcases hqp_mem c hc with hc2 | hc2
        · subst hc2; rfl
        · exact (hq c hc2).2
    · rcases hfp_mem c hc with hc2 | hc2
      · subst hc2; rfl
      · exact hf c hc2
  have hfilter : url.filter (fun c => !tab_cr_lf c) = url := by
    rw [List.filter_eq_self]
    intro c hc
    simp [hall_not_tcl c hc]
  have hcolon_sch : ':' ∉ sch := by
    intro hc
    exact (hs ':' hc).2.2.2.2.2.2 rfl
  have hscheme : split_scheme url = (sch, '/' :: '/' :: (nl ++ pth ++ qp ++ fp)) := by
    unfold split_scheme
    rw [hurl, break1_append ':' sch _ hcolon_sch]
    rw [hsch]
    have hall : (c0 :: sch').all scheme_char = true := by
      rw [List.all_eq_true]
      intro c hc
      exact (hs c (hsch ▸ hc)).2.2.2.2.2.1
    have hmap : (c0 :: sch').map Char.toLower = c0 :: sch' := by
      have h2 : ∀ c ∈ c0 :: sch', Char.toLower c = c := fun c hc => (hs c (hsch ▸ hc)).2.1
      calc (c0 :: sch').map Char.toLower = (c0 :: sch').map id :=
            List.map_congr_left h2
        _ = c0 :: sch' := List.map_id _
    have hc0 := hs c0 (by simp [hsch])
    simp [hc0.2.2.2.2.1, hc0.1, hall, hmap]
  have htail_stop : (pth ++ (qp ++ fp)).takeWhile (fun c => !netloc_stop c) = [] ∧
      (pth ++ (qp ++ fp)).dropWhile (fun c => !netloc_stop c) = pth ++ (qp ++ fp) := by
    rcases hp0 with hpe | ⟨t, hpt⟩
    · subst hpe
      simp only [List.nil_append]
      by_cases hqe : q = []
      · rw [hqp, hfp]
        simp only [hqe, if_true, List.nil_append]
        by_cases hfe : f = []
        · simp [hfe]
        · simp only [hfe, if_false]
          constructor <;> simp [netloc_stop]
      · rw [hqp]
        simp only [hqe, if_false, List.cons_append]
        constructor <;> simp [netloc_stop]
    · subst hpt
      simp only [List.cons_append]
      constructor <;> simp [netloc_stop]
  have hnetloc : split_netloc ('/' :: '/' :: (nl ++ pth ++ qp ++ fp)) =
      (nl, pth ++ qp ++ fp) := by
    unfold split_netloc
    have hnl_all : ∀ x ∈ nl, (fun c => !netloc_stop c) x = true := by
      intro x hx
      simp [(hn x hx).1]
    simp only [List.append_assoc]
    rw [takeWhile_append_all _ nl hnl_all, dropWhile_append_all _ nl hnl_all]
    rw [htail_stop.1, htail_stop.2]
    simp
  have hhash_pq : '#' ∉ pth ++ qp := by
    intro hc
    rcases List.mem_append.mp hc with hc | hc
    · exact (hp '#' hc).1 rfl
    · rcases hqp_mem '#' hc with hc2 | hc2
      · exact absurd hc2 (by decide)
      · exact (hq '#' hc2).1 rfl
  have hfrag : break1 '#' (pth ++ qp ++ fp) = (pth ++ qp, (if f = [] then none else some f)) := by
    by_cases hfe : f = []
    · rw [hfp]
      simp only [hfe, if_true, List.append_nil]
      exact break1_not_mem '#' _ hhash_pq
    · rw [hfp]
      simp only [hfe, if_false]
      exact break1_append '#' _ f hhash_pq
  have hquery : break1 '?' (pth ++ qp) = (pth, (if q = [] then none else some q)) := by
    have hq_pth : '?' ∉ pth := fun hc => (hp '?' hc).2.1 rfl
    by_cases hqe : q = []
    · rw [hqp]
      simp only [hqe, if_true, List.append_nil]
      exact break1_not_mem '?' pth hq_pth
    · rw [hqp]
      simp only [hqe, if_false]
      exact break1_append '?' pth q hq_pth
  have hparams : split_params pth = (pth, []) :=
    split_params_no_semi pth (fun hc => (hp ';' hc).2.2.1 rfl)
  show py_urlparse_l url = _
  unfold py_urlparse_l
  dsimp only
  rw [hdrop, hfilter, hscheme]
  simp only []
  rw [hnetloc]
  simp only []
  rw [hfrag]
  simp only []
  rw [hquery]
  simp only []
  rw [hparams]
  by_cases hqe : q = [] <;> by_cases hfe : f = [] <;> simp [hqe, hfe]

/-- Claim C5, corrected: for a well-formed URL
`scheme://netloc/path[?query][#fragment]` with a lowercase alphabetic
scheme and no `;params`, `normalize_url` returns exactly the
fragment-stripped URL, while `WebCrawler.clean_url` — also used as a
dedup key — strips the query as well.  (On general URLs, `;params` are
dropped too; see the counterexample.) -/
theorem normalize_url_well_formed (sch nl pth q f : List Char)
    (hs0 : sch ≠ [])
    (hs : ∀ c ∈ sch, c.isAlpha = true ∧ c.toLower = c ∧ control_or_space c = false ∧
      tab_cr_lf c = false ∧ is_ascii c = true ∧ scheme_char c = true ∧ c ≠ ':')
    (hn : ∀ c ∈ nl, netloc_stop c = false ∧ tab_cr_lf c = false)
    (hp0 : pth = [] ∨ ∃ t, pth = '/' :: t)
    (hp : ∀ c ∈ pth, c ≠ '#' ∧ c ≠ '?' ∧ c ≠ ';' ∧ tab_cr_lf c = false)
    (hq : ∀ c ∈ q, c ≠ '#' ∧ tab_cr_lf c = false)
    (hf : ∀ c ∈ f, tab_cr_lf c = false) :
    normalize_url (String.mk (sch ++ ':' :: '/' :: '/' :: (nl ++ pth ++
        (if q = [] then [] else '?' :: q) ++ (if f = [] then [] else '#' :: f)))) =
      String.mk (sch ++ ':' :: '/' :: '/' :: (nl ++ pth ++
        (if q = [] then [] else '?' :: q))) ∧
    clean_url (String.mk (sch ++ ':' :: '/' :: '/' :: (nl ++ pth ++
        (if q = [] then [] else '?' :: q) ++ (if f = [] then [] else '#' :: f)))) =
      String.mk (sch ++ ':' :: '/' :: '/' :: (nl ++ pth)) := by
  have hparse := py_urlparse_well_formed sch nl pth q f hs0 hs hn hp0 hp hq hf
  constructor
  · unfold normalize_url py_urlparse
    simp only [String.data]
    rw [hparse]
    simp only []
    by_cases hqe : q = []
    · simp [hqe]
    · have : ¬ q.isEmpty = true := by
        rw [List.isEmpty_iff]
        exact hqe
      simp only [this, Bool.false_eq_true, if_false, hqe]
      congr 1
      simp [String.data]
  · unfold clean_url py_urlparse
    simp only [String.data]
    rw [hparse]
    congr 1
    simp [String.data]

/-- Witness for `normalize_url_well_formed` on
`http://example.com/a/b?x=1#frag`. -/
theorem normalize_url_well_formed_witness :
    normalize_url "http://example.com/a/b?x=1#frag" = "http://example.com/a/b?x=1" ∧
    clean_url "http://example.com/a/b?x=1#frag" = "http://example.com/a/b" := by
  have h := normalize_url_well_formed "http".data "example.com".data "/a/b".data
    "x=1".data "frag".data (by decide) (by decide) (by decide)
    (Or.inr ⟨"a/b".data, by decide⟩) (by decide) (by decide) (by decide)
  exact ⟨by simpa using h.1, by simpa using h.2⟩

/-! ### Attachment rewriting (claim C8): generic list lemmas -/

theorem prefix_cancel (a x b : List Char) (h : a ++ x <+: a ++ b) : x <+: b := by
  obtain ⟨t, ht⟩ := h
  rw [List.append_assoc] at ht
  exact ⟨t, List.append_cancel_left ht⟩

theorem take_pre (x : List Char) (k : Nat) : x.take k <+: x :=
  ⟨x.drop k, List.take_append_drop k x⟩

theorem prefix_within (x y : List Char) (h : x <+: y) : x <:+: y := by
  obtain ⟨t, ht⟩ := h
  exact ⟨[], t, by simpa using ht⟩

theorem suffix_within (x y : List Char) (h : x <:+ y) : x <:+: y := by
  obtain ⟨s, hs⟩ := h
  exact ⟨s, [], by simpa using hs⟩

theorem drop_app_le (a : List Char) : ∀ (b : List Char) (i : Nat), i ≤ a.length →
    (a ++ b).drop i = a.drop i ++ b := by
  induction a with
  | nil =>
    intro b i hi
    have h0 : i = 0 := by simpa using hi
    subst h0
    simp
  | cons c a ih =>
    intro b i hi
    cases i with
    | zero => simp
    | succ i' =>
      simp only [List.cons_append, List.drop_succ_cons]
      exact ih b i' (by simpa using hi)

theorem drop_app (a : List Char) : ∀ (b : List Char) (n : Nat),
    (a ++ b).drop (a.length + n) = b.drop n := by
  induction a with
  | nil => simp
  | cons c a ih =>
    intro b n
    simp only [List.cons_append, List.length_cons]
    rw [show a.length + 1 + n = (a.length + n) + 1 by omega, List.drop_succ_cons]
    exact ih b n

theorem prefix_app_cases (x a b : List Char) (h : x <+: a ++ b) :
    x <+: a ∨ ∃ y, x = a ++ y ∧ y <+: b := by
  by_cases hl : x.length ≤ a.length
  · exact Or.inl (List.prefix_of_prefix_length_le h (List.prefix_append a b) hl)
  · right
    have ha : a <+: x :=
      List.prefix_of_prefix_length_le (List.prefix_append a b) h (by omega)
    obtain ⟨y, hy⟩ := ha
    refine ⟨y, hy.symm, prefix_cancel a y b ?_⟩
    rw [hy]
    exact h

theorem infix_iff_drop (x h : List Char) : x <:+: h ↔ ∃ i, x <+: h.drop i := by
  constructor
  · rintro ⟨s, t, rfl⟩
    refine ⟨s.length, ?_⟩
    have h0 := drop_app s (x ++ t) 0
    rw [Nat.add_zero, List.drop_zero] at h0
    rw [List.append_assoc, h0]
    exact List.prefix_append x t
  · rintro ⟨i, t, ht⟩
    exact ⟨h.take i, t, by rw [List.append_assoc, ht, List.take_append_drop]⟩

theorem infix_append_cases (x a b : List Char) (h : x <:+: a ++ b) :
    x <:+: a ∨ x <:+: b ∨
      ∃ x1 x2, x = x1 ++ x2 ∧ x1 ≠ [] ∧ x2 ≠ [] ∧ x1 <:+ a ∧ x2 <+: b := by
  rw [infix_iff_drop] at h
  obtain ⟨i, hi⟩ := h
  by_cases hia : i ≤ a.length
  · rw [drop_app_le a b i hia] at hi
    rcases prefix_app_cases x (a.drop i) b hi with hx | ⟨y, hxy, hyb⟩
    · exact Or.inl ((infix_iff_drop x a).mpr ⟨i, hx⟩)
    · by_cases hde : a.drop i = []
      · rw [hde] at hxy
        simp only [List.nil_append] at hxy
        exact Or.inr (Or.inl ((infix_iff_drop x b).mpr ⟨0, by simpa [hxy] using hyb⟩))
      · by_cases hye : y = []
        · rw [hye] at hxy
          simp only [List.append_nil] at hxy
          exact Or.inl ((infix_iff_drop x a).mpr ⟨i, by rw [hxy]⟩)
        · exact Or.inr (Or.inr ⟨a.drop i, y, hxy, hde, hye, List.drop_suffix i a, hyb⟩)
  · rw [show i = a.length + (i - a.length) by omega, drop_app a b _] at hi
    exact Or.inr (Or.inl ((infix_iff_drop x b).mpr ⟨i - a.length, hi⟩))

theorem suffixB_iff (a b : List Char) : suffixB a b = true ↔ a <:+ b := by
  unfold suffixB
  rw [List.isPrefixOf_iff_prefix]
  constructor
  · rintro ⟨t, ht⟩
    refine ⟨t.reverse, ?_⟩
    rw [← List.reverse_reverse b, ← ht, List.reverse_append, List.reverse_reverse]
  · rintro ⟨t, ht⟩
    exact ⟨t.reverse, by rw [← ht, List.reverse_append]⟩

theorem all_takeWhile (p : Char → Bool) : ∀ l : List Char, ∀ c ∈ l.takeWhile p,
    p c = true := by
  intro l
  induction l with
  | nil => simp
  | cons d t ih =>
    intro c hc
    by_cases hd : p d
    · rw [List.takeWhile_cons_of_pos hd] at hc
      rcases List.mem_cons.mp hc with h | h
      · exact h ▸ hd
      · exact ih c h
    · rw [List.takeWhile_cons_of_neg hd] at hc
      exact absurd hc (List.not_mem_nil c)

theorem take_classy_of_le (p : Char → Bool) (l : List Char) (j : Nat)
    (hj : j ≤ (l.takeWhile p).length) : ∀ c ∈ l.take j, p c = true := by
  intro c hc
  have h1 : l.take j <+: l.takeWhile p := by
    refine List.prefix_of_prefix_length_le (take_pre l j) ?_ ?_
    · exact List.takeWhile_prefix p
    · simpa [List.length_take] using Nat.le_trans (Nat.min_le_left _ _) hj
  exact all_takeWhile p l c (h1.sublist.subset hc)

/-! ### Attachment rewriting (claim C8): matcher facts -/

theorem q_imp_t (c : Char) (h : q_class c = true) : t_class c = true := by
  unfold q_class at h
  simp only [Bool.not_eq_true', Bool.or_eq_false_iff] at h
  unfold t_class
  simp [h.1.1.1, h.1.1.2, h.2]

theorem qlen_le (s : List Char) : qlen s ≤ s.length := by
  unfold qlen
  split
  · next rest =>
    have h := (List.takeWhile_prefix (l := rest) q_class).length_le
    simp only [List.length_cons]
    omega
  · exact Nat.zero_le _

theorem qlen_take_classy (s : List Char) : ∀ c ∈ s.take (qlen s), t_class c = true := by
  unfold qlen
  split
  · next rest =>
    intro c hc
    rw [Nat.add_comm] at hc
    simp only [List.take_succ_cons] at hc
    rcases List.mem_cons.mp hc with h | h
    · subst h; decide
    · exact q_imp_t c
        (take_classy_of_le q_class rest _ (Nat.le_refl _) c h)
  · intro c hc
    simp at hc

theorem litM_nil (x : List Char) (hx : x ≠ []) : litM x [] = none := by
  unfold litM
  cases x with
  | nil => exact absurd rfl hx
  | cons c t => simp [List.isPrefixOf]

theorem litM_ne0 (x : List Char) (hx : x ≠ []) (s : List Char) : litM x s ≠ some 0 := by
  unfold litM
  by_cases h : x.isPrefixOf s
  · rw [if_pos h]
    intro hc
    injection hc with hc
    have : x.length ≠ 0 := by
      intro h0
      exact hx (List.length_eq_zero.mp h0)
    omega
  · rw [if_neg h]
    simp

theorem litM_of_prefix (x s : List Char) (h : x <+: s) : (litM x s).isSome = true := by
  unfold litM
  rw [if_pos (List.isPrefixOf_iff_prefix.mpr h)]
  rfl

theorem back_find_succ (fn rest : List Char) (k : Nat) :
    back_find fn rest (k + 1) =
      if ('/' :: fn).isPrefixOf (rest.drop (k + 1)) then some (k + 1)
      else back_find fn rest k := by
  unfold back_find
  rw [List.range_succ, List.reverse_append]
  simp only [List.reverse_singleton, List.singleton_append]
  by_cases h : ('/' :: fn).isPrefixOf (rest.drop (k + 1))
  · rw [List.find?_cons_of_pos _ (by simpa using h), if_pos h]
  · rw [List.find?_cons_of_neg _ (by simpa using h), if_neg h]

theorem back_find_zero (fn rest : List Char) :
    back_find fn rest 0 = if ('/' :: fn).isPrefixOf rest then some 0 else none := by
  unfold back_find
  rw [show List.range 1 = [0] from rfl]
  simp only [List.reverse_singleton]
  by_cases h : ('/' :: fn).isPrefixOf rest
  · rw [List.find?_cons_of_pos _ (by simpa using h), if_pos h]
  · rw [List.find?_cons_of_neg _ (by simpa using h), if_neg h]
    simp

theorem back_find_spec (fn rest : List Char) : ∀ (k j : Nat),
    back_find fn rest k = some j →
      j ≤ k ∧ ('/' :: fn).isPrefixOf (rest.drop j) = true ∧
        ∀ i, j < i → i ≤ k → ('/' :: fn).isPrefixOf (rest.drop i) = false := by
  intro k
  induction k with
  | zero =>
    intro j h
    rw [back_find_zero] at h
    by_cases hp : ('/' :: fn).isPrefixOf rest
    · rw [if_pos hp] at h
      injection h with h
      subst h
      exact ⟨Nat.le_refl 0, by simpa using hp,
        fun i h1 h2 => absurd (Nat.lt_of_lt_of_le h1 h2) (Nat.lt_irrefl 0)⟩
    · rw [if_neg hp] at h
      exact absurd h (by simp)
  | succ k ih =>
    intro j h
    rw [back_find_succ] at h
    by_cases hp : ('/' :: fn).isPrefixOf (rest.drop (k + 1))
    · rw [if_pos hp] at h
      injection h with h
      subst h
      exact ⟨Nat.le_refl _, hp,
        fun i h1 h2 => absurd (Nat.lt_of_lt_of_le h1 h2) (Nat.lt_irrefl _)⟩
    · rw [if_neg hp] at h
      obtain ⟨h1, h2, h3⟩ := ih j h
      refine ⟨Nat.le_succ_of_le h1, h2, fun i hi1 hi2 => ?_⟩
      by_cases hik : i ≤ k
      · exact h3 i hi1 hik
      · have hik1 : i = k + 1 := by omega
        subst hik1
        simp only [Bool.not_eq_true] at hp
        exact hp

theorem back_find_isSome (fn rest : List Char) : ∀ (k j : Nat), j ≤ k →
    ('/' :: fn).isPrefixOf (rest.drop j) = true → (back_find fn rest k).isSome = true := by
  intro k
  induction k with
  | zero =>
    intro j hj hp
    have h0 : j = 0 := by omega
    subst h0
    rw [back_find_zero, if_pos (by simpa using hp)]
    rfl
  | succ k ih =>
    intro j hj hp
    rw [back_find_succ]
    by_cases h : ('/' :: fn).isPrefixOf (rest.drop (k + 1))
    · rw [if_pos h]
      rfl
    · rw [if_neg h]
      by_cases hjk : j ≤ k
      · exact ih j hjk hp
      · have hj1 : j = k + 1 := by omega
        subst hj1
        exact absurd hp h

theorem thumbW_classy : thumbW.all t_class = true := by decide

theorem thumbM6_nil (fn : List Char) : thumbM6 fn [] = none := by
  unfold thumbM6
  rw [show thumbW.isPrefixOf ([] : List Char) = false from by decide]
  simp

theorem thumbM6_some (fn s : List Char) (N : Nat) (h : thumbM6 fn s = some N) :
    ∃ rest j, s = thumbW ++ rest ∧
      back_find fn rest ((rest.takeWhile t_class).length) = some j ∧
      N = thumbW.length + j + 1 + fn.length + qlen (rest.drop (j + 1 + fn.length)) := by
  unfold thumbM6 at h
  by_cases hp : thumbW.isPrefixOf s
  · rw [if_pos hp] at h
    dsimp only at h
    obtain ⟨t, ht⟩ := List.isPrefixOf_iff_prefix.mp hp
    have hdrop : s.drop thumbW.length = t := by
      rw [← ht]
      have h0 := drop_app thumbW t 0
      rw [Nat.add_zero, List.drop_zero] at h0
      exact h0
    rw [hdrop] at h
    cases hbf : back_find fn t ((t.takeWhile t_class).length) with
    | none => rw [hbf] at h; exact absurd h (by simp)
    | some j =>
      rw [hbf] at h
      injection h with h
      exact ⟨t, j, ht.symm, hbf, h.symm⟩
  · rw [if_neg hp] at h
    exact absurd h (by simp)

theorem thumbM6_ne0 (fn s : List Char) : thumbM6 fn s ≠ some 0 := by
  intro h
  obtain ⟨rest, j, _, _, hN⟩ := thumbM6_some fn s 0 h
  have h26 : thumbW.length = 26 := by decide
  omega

theorem thumbM6_fires (fn mm tail : List Char) (hmm : mm.all t_class = true) :
    (thumbM6 fn (thumbW ++ (mm ++ ('/' :: fn ++ tail)))).isSome = true := by
  unfold thumbM6
  rw [if_pos (List.isPrefixOf_iff_prefix.mpr (List.prefix_append _ _))]
  dsimp only
  have hdrop : (thumbW ++ (mm ++ ('/' :: fn ++ tail))).drop thumbW.length =
      mm ++ ('/' :: fn ++ tail) := by
    have h0 := drop_app thumbW (mm ++ ('/' :: fn ++ tail)) 0
    rw [Nat.add_zero, List.drop_zero] at h0
    exact h0
  rw [hdrop]
  have hmmall : ∀ c ∈ mm, t_class c = true := List.all_eq_true.mp hmm
  have htw := takeWhile_append_all t_class mm hmmall ('/' :: fn ++ tail)
  have hklen : mm.length ≤ ((mm ++ ('/' :: fn ++ tail)).takeWhile t_class).length := by
    rw [htw]
    simp
  have hpre : ('/' :: fn).isPrefixOf ((mm ++ ('/' :: fn ++ tail)).drop mm.length) = true := by
    have h0 := drop_app mm ('/' :: fn ++ tail) 0
    rw [Nat.add_zero, List.drop_zero] at h0
    rw [h0]
    exact List.isPrefixOf_iff_prefix.mpr (List.prefix_append _ _)
  have hsome := back_find_isSome fn (mm ++ ('/' :: fn ++ tail)) _ mm.length hklen hpre
  cases hbf : back_find fn (mm ++ ('/' :: fn ++ tail))
      (((mm ++ ('/' :: fn ++ tail)).takeWhile t_class).length) with
  | none => rw [hbf] at hsome; exact absurd hsome (by simp)
  | some j => rfl

theorem thumbM5_nil (fn : List Char) : thumbM5 fn [] = none := by
  unfold thumbM5
  rw [show ("https://".data).isPrefixOf ([] : List Char) = false from by decide,
    show ("http://".data).isPrefixOf ([] : List Char) = false from by decide]
  simp

theorem thumbM5_ne0 (fn s : List Char) : thumbM5 fn s ≠ some 0 := by
  unfold thumbM5
  by_cases h1 : ("https://".data).isPrefixOf s
  · rw [if_pos h1]
    intro h
    rw [Option.map_eq_some'] at h
    obtain ⟨a, _, ha⟩ := h
    omega
  · rw [if_neg h1]
    by_cases h2 : ("http://".data).isPrefixOf s
    · rw [if_pos h2]
      intro h
      rw [Option.map_eq_some'] at h
      obtain ⟨a, _, ha⟩ := h
      omega
    · rw [if_neg h2]
      simp

/-! ### Attachment rewriting (claim C8): literal-pattern freeness

`lit_prop`: under the non-recombination conditions, a nonempty proper
suffix of the literal that is a prefix of a `subGF` output is already a
prefix of the input.  `lit_own`: the pass for a literal removes every
occurrence of it.  `lit_foreign`: any other positive pass with the same
replacement preserves freeness. -/

theorem lit_prop (x r : List Char) (m : List Char → Option Nat)
    (hm0 : ∀ s, m s ≠ some 0) (hmnil : m [] = none)
    (h3 : ¬ r <:+: x)
    (h5 : ∀ k, 0 < k → k < x.length → ¬ x.drop k <+: r) :
    ∀ fuel s k, 0 < k → k < x.length →
      x.drop k <+: subGF m r fuel s → x.drop k <+: s := by
  intro fuel
  induction fuel with
  | zero =>
    intro s k _ _ hp
    simpa [subGF] using hp
  | succ fuel ih =>
    intro s k hk1 hk2 hp
    cases s with
    | nil =>
      simpa only [subGF, hmnil, Option.isSome_none, Bool.false_eq_true, if_false] using hp
    | cons c s =>
      cases hm : m (c :: s) with
      | none =>
        simp only [subGF, hm] at hp
        cases hxd : x.drop k with
        | nil =>
          have hlen := congrArg List.length hxd
          simp only [List.length_drop, List.length_nil] at hlen
          omega
        | cons d tl =>
          rw [hxd, List.cons_prefix_cons] at hp
          obtain ⟨hdc, htl⟩ := hp
          have htl_eq : tl = x.drop (k + 1) := by
            have h1 : (x.drop k).drop 1 = x.drop (k + 1) := List.drop_drop 1 k x
            rw [hxd] at h1
            simpa using h1
          rw [List.cons_prefix_cons]
          refine ⟨hdc, ?_⟩
          by_cases hk3 : k + 1 < x.length
          · have := ih s (k + 1) (by omega) hk3 (by rw [← htl_eq]; exact htl)
            rw [htl_eq]
            exact this
          · have hnil : x.drop (k + 1) = [] := List.drop_eq_nil_of_le (by omega)
            rw [htl_eq, hnil]
            exact List.nil_prefix
      | some n =>
        cases n with
        | zero => exact absurd hm (hm0 _)
        | succ n =>
          simp only [subGF, hm] at hp
          rcases prefix_app_cases _ r _ hp with hcase | ⟨y, hxy, _⟩
          · exact absurd hcase (h5 k hk1 hk2)
          · exfalso
            apply h3
            refine ⟨x.take k, y, ?_⟩
            have hx : x.take k ++ x.drop k = x := List.take_append_drop k x
            rw [hxy] at hx
            rw [List.append_assoc]
            exact hx

theorem lit_own (x r : List Char)
    (h1 : x ≠ []) (h2 : ¬ x <:+: r) (h3 : ¬ r <:+: x)
    (h4 : ∀ k, 0 < k → k < x.length → ¬ x.take k <:+ r)
    (h5 : ∀ k, 0 < k → k < x.length → ¬ x.drop k <+: r) :
    ∀ fuel s, s.length < fuel → ¬ x <:+: subGF (litM x) r fuel s := by
  intro fuel
  induction fuel with
  | zero =>
    intro s hs
    exact absurd hs (Nat.not_lt_zero _)
  | succ fuel ih =>
    intro s hs hinf
    cases s with
    | nil =>
      simp only [subGF, litM_nil x h1, Option.isSome_none, Bool.false_eq_true,
        if_false] at hinf
      exact h1 (List.eq_nil_of_infix_nil hinf)
    | cons c s =>
      cases hm : litM x (c :: s) with
      | none =>
        simp only [subGF, hm] at hinf
        rcases List.infix_cons_iff.mp hinf with hpre | htail
        · rcases x with _ | ⟨d, tl⟩
          · exact h1 rfl
          · rw [List.cons_prefix_cons] at hpre
            obtain ⟨hdc, htl⟩ := hpre
            have hfire : d :: tl <+: c :: s := by
              rw [List.cons_prefix_cons]
              refine ⟨hdc, ?_⟩
              by_cases htl0 : tl = []
              · rw [htl0]
                exact List.nil_prefix
              · have hlen : 1 < (d :: tl).length := by
                  simp only [List.length_cons]
                  have : tl.length ≠ 0 := fun h0 => htl0 (List.length_eq_zero.mp h0)
                  omega
                exact lit_prop (d :: tl) r (litM (d :: tl)) (litM_ne0 _ h1)
                  (litM_nil _ h1) h3 h5 fuel s 1 (by omega) hlen htl
            have hsome := litM_of_prefix (d :: tl) (c :: s) hfire
            rw [hm] at hsome
            simp at hsome
        · refine ih s ?_ htail
          simp only [List.length_cons] at hs
          omega
      | some n =>
        cases n with
        | zero => exact absurd hm (litM_ne0 x h1 _)
        | succ n =>
          simp only [subGF, hm] at hinf
          rcases infix_append_cases x r _ hinf with hr | hout |
            ⟨x1, x2, heq, hx1, hx2, hx1s, hx2p⟩
          · exact h2 hr
          · refine ih (s.drop n) ?_ hout
            have hd := List.length_drop n s
            simp only [List.length_cons] at hs
            omega
          · have hk1 : 0 < x1.length := List.length_pos.mpr hx1
            have hk2 : x1.length < x.length := by
              rw [heq, List.length_append]
              have : x2.length ≠ 0 := fun h0 => hx2 (List.length_eq_zero.mp h0)
              omega
            refine h4 x1.length hk1 hk2 ?_
            rw [heq, List.take_left]
            exact hx1s

theorem lit_foreign (x r : List Char) (m : List Char → Option Nat)
    (hm0 : ∀ s, m s ≠ some 0) (hmnil : m [] = none)
    (h2 : ¬ x <:+: r) (h3 : ¬ r <:+: x)
    (h4 : ∀ k, 0 < k → k < x.length → ¬ x.take k <:+ r)
    (h5 : ∀ k, 0 < k → k < x.length → ¬ x.drop k <+: r) :
    ∀ fuel s, s.length < fuel → ¬ x <:+: s → ¬ x <:+: subGF m r fuel s := by
  intro fuel
  induction fuel with
  | zero =>
    intro s hs
    exact absurd hs (Nat.not_lt_zero _)
  | succ fuel ih =>
    intro s hs hfree hinf
    cases s with
    | nil =>
      simp only [subGF, hmnil, Option.isSome_none, Bool.false_eq_true, if_false] at hinf
      exact hfree hinf
    | cons c s =>
      cases hm : m (c :: s) with
      | none =>
        simp only [subGF, hm] at hinf
        rcases List.infix_cons_iff.mp hinf with hpre | htail
        · rcases x with _ | ⟨d, tl⟩
          · exact hfree (List.nil_infix)
          · rw [List.cons_prefix_cons] at hpre
            obtain ⟨hdc, htl⟩ := hpre
            apply hfree
            apply prefix_within
            rw [List.cons_prefix_cons]
            refine ⟨hdc, ?_⟩
            by_cases htl0 : tl = []
            · rw [htl0]
              exact List.nil_prefix
            · have hlen : 1 < (d :: tl).length := by
                simp only [List.length_cons]
                have : tl.length ≠ 0 := fun h0 => htl0 (List.length_eq_zero.mp h0)
                omega
              exact lit_prop (d :: tl) r m hm0 hmnil h3 h5 fuel s 1 (by omega) hlen htl
        · refine ih s ?_ ?_ htail
          · simp only [List.length_cons] at hs
            omega
          · intro hc
            exact hfree (List.infix_cons_iff.mpr (Or.inr hc))
      | some n =>
        cases n with
        | zero => exact absurd hm (hm0 _)
        | succ n =>
          simp only [subGF, hm] at hinf
          rcases infix_append_cases x r _ hinf with hr | hout |
            ⟨x1, x2, heq, hx1, hx2, hx1s, hx2p⟩
          · exact h2 hr
          · refine ih (s.drop n) ?_ ?_ hout
            · have hd := List.length_drop n s
              simp only [List.length_cons] at hs
              omega
            · intro hc
              apply hfree
              apply List.infix_cons_iff.mpr
              right
              exact hc.trans (suffix_within _ _ (List.drop_suffix n s))
          · have hk1 : 0 < x1.length := List.length_pos.mpr hx1
            have hk2 : x1.length < x.length := by
              rw [heq, List.length_append]
              have : x2.length ≠ 0 := fun h0 => hx2 (List.length_eq_zero.mp h0)
              omega
            refine h4 x1.length hk1 hk2 ?_
            rw [heq, List.take_left]
            exact hx1s

/-! ### Attachment rewriting (claim C8): bare-thumbnail family -/

theorem sufP_tail (fn : List Char) (hfn0 : fn ≠ []) (d : Char) (tl : List Char)
    (h : SufP fn (d :: tl)) (htl0 : tl ≠ []) : SufP fn tl := by
  rcases h with ⟨i, mm, hi1, hi2, hmm, hpe⟩ | ⟨t, ht1, ht2, hpe⟩
  · by_cases hiW : i < thumbW.length
    · left
      refine ⟨i + 1, mm, by omega, by omega, hmm, ?_⟩
      have h1 := congrArg (List.drop 1) hpe
      simp only [List.drop_succ_cons, List.drop_zero] at h1
      have hWne : 1 ≤ (thumbW.drop i).length := by
        simp only [List.length_drop]
        have h26 : thumbW.length = 26 := by decide
        omega
      have hw1 : 1 ≤ (thumbW.drop i ++ mm).length := by
        simp only [List.length_append]
        omega
      rw [drop_app_le (thumbW.drop i ++ mm) ('/' :: fn) 1 hw1,
        drop_app_le (thumbW.drop i) mm 1 hWne, List.drop_drop] at h1
      exact h1
    · have hWd : thumbW.drop i = [] := List.drop_eq_nil_of_le (by omega)
      rw [hWd, List.nil_append] at hpe
      rcases mm with _ | ⟨e, mm2⟩
      · right
        refine ⟨1, Nat.le_refl 1, ?_, ?_⟩
        · have := List.length_pos.mpr hfn0
          omega
        · simp only [List.nil_append] at hpe
          have h2 := congrArg (List.drop 1) hpe
          simpa using h2
      · left
        refine ⟨thumbW.length, mm2, by decide, Nat.le_refl _, ?_, ?_⟩
        · simp only [List.all_cons, Bool.and_eq_true] at hmm
          exact hmm.2
        · rw [List.drop_length]
          simp only [List.nil_append]
          rw [List.cons_append] at hpe
          have h2 := congrArg (List.drop 1) hpe
          simpa using h2
  · right
    refine ⟨t + 1, by omega, ?_, ?_⟩
    · have hlen := congrArg List.length hpe
      simp only [List.length_cons, List.length_drop] at hlen
      have htl : tl.length ≠ 0 := fun h0 => htl0 (List.length_eq_zero.mp h0)
      omega
    · have h1 := congrArg (List.drop 1) hpe
      simp only [List.drop_succ_cons, List.drop_zero] at h1
      rw [List.drop_drop] at h1
      exact h1

theorem sufP_not_prefix_r (fn r p : List Char) (_hfn0 : fn ≠ [])
    (hS3 : ∀ i, i < r.length → s6_ext_left fn (r.take (i + 1)) = false)
    (hS4 : ∀ i, 0 < i → i < thumbW.length → ¬ r <+: thumbW.drop i ∧ ¬ thumbW.drop i <+: r)
    (hsp : SufP fn p) (hpr : p <+: r) : False := by
  rcases hsp with ⟨i, mm, hi1, hi2, hmm, hpe⟩ | ⟨t, ht1, ht2, hpe⟩
  · by_cases hiW : i < thumbW.length
    · have h1 : thumbW.drop i <+: p := by
        rw [hpe, List.append_assoc]
        exact List.prefix_append _ _
      exact (hS4 i hi1 hiW).2 (h1.trans hpr)
    · have hWd : thumbW.drop i = [] := List.drop_eq_nil_of_le (by omega)
      rw [hWd, List.nil_append] at hpe
      have hplen : 0 < p.length := by
        rw [hpe]
        simp [List.length_append]
      have hple : p.length ≤ r.length := hpr.length_le
      have htake : r.take p.length = p := (List.prefix_iff_eq_take.mp hpr).symm
      have hfalse := hS3 (p.length - 1) (by omega)
      rw [show p.length - 1 + 1 = p.length from by omega, htake] at hfalse
      have htrue : s6_ext_left fn p = true := by
        unfold s6_ext_left
        rw [Bool.or_eq_true]
        right
        rw [Bool.and_eq_true]
        constructor
        · rw [suffixB_iff]
          exact ⟨mm, hpe.symm⟩
        · have hlen : p.length - fn.length - 1 = mm.length := by
            rw [hpe]
            simp only [List.length_append, List.length_cons]
            omega
          rw [hlen, hpe, List.take_left]
          exact hmm
      rw [hfalse] at htrue
      exact Bool.false_ne_true htrue
  · have hplen : 0 < p.length := by
      rw [hpe]
      simp only [List.length_drop, List.length_cons]
      omega
    have hple : p.length ≤ r.length := hpr.length_le
    have htake : r.take p.length = p := (List.prefix_iff_eq_take.mp hpr).symm
    have hfalse := hS3 (p.length - 1) (by omega)
    rw [show p.length - 1 + 1 = p.length from by omega, htake] at hfalse
    have htrue : s6_ext_left fn p = true := by
      unfold s6_ext_left
      rw [Bool.or_eq_true]
      left
      rw [suffixB_iff]
      exact ⟨('/' :: fn).take t, by rw [hpe]; exact List.take_append_drop t _⟩
    rw [hfalse] at htrue
    exact Bool.false_ne_true htrue

theorem greedy_blocked (fn rest : List Char) (hfncl : fn.all t_class = true)
    (j q : Nat)
    (hbf : back_find fn rest ((rest.takeWhile t_class).length) = some j)
    (hq : q = qlen (rest.drop (j + 1 + fn.length)))
    (mm : List Char) (hmm : mm.all t_class = true)
    (hy : mm ++ '/' :: fn <+: rest.drop (j + 1 + fn.length + q)) : False := by
  obtain ⟨hjk, hpj, hmax⟩ := back_find_spec fn rest _ j hbf
  obtain ⟨t0, ht0⟩ := List.isPrefixOf_iff_prefix.mp hpj
  set D := rest.drop (j + 1 + fn.length) with hD
  have hDt : D = t0 := by
    rw [hD]
    have h1 : rest.drop (j + 1 + fn.length) = (rest.drop j).drop (1 + fn.length) := by
      rw [List.drop_drop]
      congr 1
      omega
    rw [h1, ← ht0]
    have h0 := drop_app ('/' :: fn) t0 0
    rw [Nat.add_zero, List.drop_zero] at h0
    have h2 : ('/' :: fn).length = 1 + fn.length := by
      simp [Nat.add_comm]
    rw [h2] at h0
    exact h0
  have hDq : D.drop q = rest.drop (j + 1 + fn.length + q) := by
    rw [hD]
    exact List.drop_drop q _ rest
  rw [← hDq] at hy
  obtain ⟨w, hw⟩ := hy
  set A := rest.take j ++ '/' :: fn ++ D.take q ++ mm with hA
  have h1 : rest.drop j = '/' :: fn ++ D := by
    rw [hDt]
    exact ht0.symm
  have h2 : D = D.take q ++ (mm ++ '/' :: fn ++ w) := by
    conv_lhs => rw [← List.take_append_drop q D]
    rw [← hw]
  have hrest : rest = A ++ ('/' :: fn ++ w) := by
    rw [hA]
    calc rest = rest.take j ++ rest.drop j := (List.take_append_drop j rest).symm
      _ = rest.take j ++ ('/' :: fn ++ D) := by rw [h1]
      _ = rest.take j ++ ('/' :: fn ++ (D.take q ++ (mm ++ '/' :: fn ++ w))) := by
          rw [← h2]
      _ = rest.take j ++ '/' :: fn ++ D.take q ++ mm ++ ('/' :: fn ++ w) := by
          simp [List.append_assoc]
  have hqD : q = qlen D := hq
  have hAcl : ∀ c ∈ A, t_class c = true := by
    intro c hc
    rw [hA] at hc
    rcases List.mem_append.mp hc with hc1 | hc4
    · rcases List.mem_append.mp hc1 with hc2 | hc3
      · rcases List.mem_append.mp hc2 with hcj | hcf
        · exact take_classy_of_le t_class rest j hjk c hcj
        · rcases List.mem_cons.mp hcf with hsl | hfn
          · subst hsl
            decide
          · exact List.all_eq_true.mp hfncl c hfn
      · rw [hqD] at hc3
        exact qlen_take_classy D c hc3
    · exact List.all_eq_true.mp hmm c hc4
  have hsplit := takeWhile_append_all t_class A hAcl ('/' :: fn ++ w)
  have hklen : A.length ≤ (rest.takeWhile t_class).length := by
    have hcong := congrArg (fun l => (List.takeWhile t_class l).length) hrest
    simp only at hcong
    rw [hsplit, List.length_append] at hcong
    omega
  have hjr : j ≤ rest.length := by
    have hTW := ( List.takeWhile_prefix (l := rest) t_class).length_le
    omega
  have hqDl : q ≤ D.length := by
    rw [hqD]
    exact qlen_le D
  have hAlen : A.length = j + 1 + fn.length + q + mm.length := by
    rw [hA]
    simp only [List.length_append, List.length_take, List.length_cons,
      Nat.min_eq_left hjr, Nat.min_eq_left hqDl]
    omega
  have hdropA : rest.drop A.length = '/' :: fn ++ w := by
    conv_lhs => rw [hrest]
    have h0 := drop_app A ('/' :: fn ++ w) 0
    rw [Nat.add_zero, List.drop_zero] at h0
    exact h0
  have hpA : ('/' :: fn).isPrefixOf (rest.drop A.length) = true := by
    rw [hdropA]
    exact List.isPrefixOf_iff_prefix.mpr (List.prefix_append _ _)
  have hfalse := hmax A.length (by omega) hklen
  rw [hfalse] at hpA
  exact Bool.false_ne_true hpA

theorem s6_prop (fn r : List Char) (hfn0 : fn ≠ []) (hfncl : fn.all t_class = true)
    (hS3 : ∀ i, i < r.length → s6_ext_left fn (r.take (i + 1)) = false)
    (hS4 : ∀ i, 0 < i → i < thumbW.length → ¬ r <+: thumbW.drop i ∧ ¬ thumbW.drop i <+: r)
    (hS5 : ∀ j, 1 ≤ j → j < r.length → ¬ r.drop j <+: ('/' :: fn))
    (hS6 : ¬ r <:+: ('/' :: fn)) :
    ∀ fuel s p, SufP fn p → p <+: subGF (thumbM6 fn) r fuel s → p <+: s := by
  intro fuel
  induction fuel with
  | zero =>
    intro s p _ hp
    simpa [subGF] using hp
  | succ fuel ih =>
    intro s p hsp hp
    cases s with
    | nil =>
      simpa only [subGF, thumbM6_nil, Option.isSome_none, Bool.false_eq_true,
        if_false] using hp
    | cons c s =>
      cases hm : thumbM6 fn (c :: s) with
      | none =>
        simp only [subGF, hm] at hp
        rcases p with _ | ⟨d, tl⟩
        · exact List.nil_prefix
        · rw [List.cons_prefix_cons] at hp
          obtain ⟨hdc, htl⟩ := hp
          rw [List.cons_prefix_cons]
          refine ⟨hdc, ?_⟩
          by_cases htl0 : tl = []
          · rw [htl0]
            exact List.nil_prefix
          · exact ih s tl (sufP_tail fn hfn0 d tl hsp htl0) htl
      | some n =>
        cases n with
        | zero => exact absurd hm (thumbM6_ne0 fn _)
        | succ n =>
          exfalso
          simp only [subGF, hm] at hp
          rcases prefix_app_cases p r _ hp with hpr | ⟨y, hpy, hyp⟩
          · exact sufP_not_prefix_r fn r p hfn0 hS3 hS4 hsp hpr
          · by_cases hy0 : y = []
            · refine sufP_not_prefix_r fn r p hfn0 hS3 hS4 hsp ?_
              rw [hpy, hy0, List.append_nil]
            · have hrp : r <+: p := ⟨y, hpy.symm⟩
              rcases hsp with ⟨i, mm, hi1, hi2, hmm, hpe⟩ | ⟨t, ht1, ht2, hpe⟩
              · by_cases hiW : i < thumbW.length
                · have hWd : thumbW.drop i <+: p := by
                    rw [hpe, List.append_assoc]
                    exact List.prefix_append _ _
                  by_cases hrW : r.length ≤ (thumbW.drop i).length
                  · exact (hS4 i hi1 hiW).1 (List.prefix_of_prefix_length_le hrp hWd hrW)
                  · exact (hS4 i hi1 hiW).2
                      (List.prefix_of_prefix_length_le hWd hrp (by omega))
                · have hWd : thumbW.drop i = [] := List.drop_eq_nil_of_le (by omega)
                  rw [hWd, List.nil_append] at hpe
                  by_cases hrm : r.length ≤ mm.length
                  · have hmp : mm <+: p := ⟨'/' :: fn, hpe.symm⟩
                    have hrmm : r <+: mm := List.prefix_of_prefix_length_le hrp hmp hrm
                    obtain ⟨mm2, hmm2⟩ := hrmm
                    have hy : y = mm2 ++ '/' :: fn := by
                      have h0 : r ++ y = r ++ (mm2 ++ '/' :: fn) := by
                        rw [← hpy, hpe, ← hmm2, List.append_assoc]
                      exact List.append_cancel_left h0
                    have hmm2cl : mm2.all t_class = true := by
                      rw [← hmm2] at hmm
                      simp only [List.all_append, Bool.and_eq_true] at hmm
                      exact hmm.2
                    have hySufP : SufP fn y := by
                      left
                      refine ⟨thumbW.length, mm2, by decide, Nat.le_refl _, hmm2cl, ?_⟩
                      rw [List.drop_length, List.nil_append]
                      exact hy
                    have hys := ih (s.drop n) y hySufP hyp
                    obtain ⟨rest, j, hcs, hbf, hN⟩ := thumbM6_some fn (c :: s) (n + 1) hm
                    have hsn : s.drop n =
                        rest.drop (j + 1 + fn.length +
                          qlen (rest.drop (j + 1 + fn.length))) := by
                      have h1 : (c :: s).drop (n + 1) = s.drop n := rfl
                      rw [hcs] at h1
                      have h2 : n + 1 = thumbW.length +
                          (j + 1 + fn.length + qlen (rest.drop (j + 1 + fn.length))) := by
                        omega
                      rw [h2, drop_app] at h1
                      exact h1.symm
                    rw [hsn, hy] at hys
                    exact greedy_blocked fn rest hfncl j _ hbf rfl mm2 hmm2cl hys
                  · have hmp : mm <+: p := ⟨'/' :: fn, hpe.symm⟩
                    have hmmr : mm <+: r := List.prefix_of_prefix_length_le hmp hrp (by omega)
                    obtain ⟨r2, hr2⟩ := hmmr
                    have hr2p : r2 <+: '/' :: fn := by
                      apply prefix_cancel mm
                      rw [hr2, ← hpe]
                      exact hrp
                    by_cases hmm0 : mm = []
                    · apply hS6
                      apply prefix_within
                      rw [← hr2, hmm0, List.nil_append]
                      exact hr2p
                    · have hmml : 1 ≤ mm.length := by
                        have := List.length_pos.mpr hmm0
                        omega
                      have hr2d : r.drop mm.length = r2 := by
                        rw [← hr2]
                        have h0 := drop_app mm r2 0
                        rw [Nat.add_zero, List.drop_zero] at h0
                        exact h0
                      refine hS5 mm.length hmml ?_ ?_
                      · omega
                      · rw [hr2d]
                        exact hr2p
              · apply hS6
                have hrt : r <+: ('/' :: fn).drop t := hpe ▸ hrp
                obtain ⟨tt, htt⟩ := hrt
                exact ⟨('/' :: fn).take t, tt, by
                  rw [List.append_assoc, htt, List.take_append_drop]⟩

theorem s6_own (fn r : List Char) (hfn0 : fn ≠ []) (hfncl : fn.all t_class = true)
    (hS1 : ∀ i, i ≤ r.length → s6_at_head fn (r.drop i) = false)
    (hS2 : ∀ i, i < r.length → s6_ext_right fn (r.drop i) = false)
    (hS3 : ∀ i, i < r.length → s6_ext_left fn (r.take (i + 1)) = false)
    (hS4 : ∀ i, 0 < i → i < thumbW.length → ¬ r <+: thumbW.drop i ∧ ¬ thumbW.drop i <+: r)
    (hS5 : ∀ j, 1 ≤ j → j < r.length → ¬ r.drop j <+: ('/' :: fn))
    (hS6 : ¬ r <:+: ('/' :: fn)) :
    ∀ fuel s, s.length < fuel → ∀ mm, mm.all t_class = true →
      ¬ (thumbW ++ mm ++ '/' :: fn) <:+: subGF (thumbM6 fn) r fuel s := by
  intro fuel
  induction fuel with
  | zero =>
    intro s hs
    exact absurd hs (Nat.not_lt_zero _)
  | succ fuel ih =>
    intro s hs mm hmm hinf
    cases s with
    | nil =>
      simp only [subGF, thumbM6_nil, Option.isSome_none, Bool.false_eq_true,
        if_false] at hinf
      have hnile := List.eq_nil_of_infix_nil hinf
      have hl := congrArg List.length hnile
      have h26 : thumbW.length = 26 := by decide
      simp only [List.length_append, List.length_cons, List.length_nil, h26] at hl
      omega
    | cons c s =>
      cases hm : thumbM6 fn (c :: s) with
      | none =>
        simp only [subGF, hm] at hinf
        rcases List.infix_cons_iff.mp hinf with hpre | htail
        · rcases hW : thumbW with _ | ⟨w0, W2⟩
          · exact absurd hW (by decide)
          · rw [hW, List.cons_append, List.cons_append, List.cons_prefix_cons] at hpre
            obtain ⟨hwc, htl2⟩ := hpre
            have hsufP : SufP fn (W2 ++ mm ++ '/' :: fn) := by
              left
              refine ⟨1, mm, Nat.le_refl 1, ?_, hmm, ?_⟩
              · have h26 : thumbW.length = 26 := by decide
                omega
              · rw [hW]
                simp
            have htael := s6_prop fn r hfn0 hfncl hS3 hS4 hS5 hS6 fuel s _ hsufP htl2
            have hXpre : (thumbW ++ mm ++ '/' :: fn) <+: c :: s := by
              rw [hW, List.cons_append, List.cons_append, List.cons_prefix_cons]
              exact ⟨hwc, htael⟩
            obtain ⟨t, ht⟩ := hXpre
            have hcs : c :: s = thumbW ++ (mm ++ ('/' :: fn ++ t)) := by
              rw [← ht]
              simp [List.append_assoc]
            have hfires := thumbM6_fires fn mm t hmm
            rw [← hcs, hm] at hfires
            simp at hfires
        · refine ih s ?_ mm hmm htail
          simp only [List.length_cons] at hs
          omega
      | some n =>
        cases n with
        | zero => exact absurd hm (thumbM6_ne0 fn _)
        | succ n =>
          simp only [subGF, hm] at hinf
          rcases infix_append_cases _ r _ hinf with hr | hout |
            ⟨x1, x2, heq, hx1, hx2, hx1s, hx2p⟩
          · rw [infix_iff_drop] at hr
            obtain ⟨i, hi⟩ := hr
            have hile : i ≤ r.length := by
              by_cases hig : i ≤ r.length
              · exact hig
              · exfalso
                have hnil : r.drop i = [] := List.drop_eq_nil_of_le (by omega)
                rw [hnil, List.prefix_nil] at hi
                have hl := congrArg List.length hi
                have h26 : thumbW.length = 26 := by decide
                simp only [List.length_append, List.length_cons, List.length_nil,
                  h26] at hl
                omega
            have hfalse := hS1 i hile
            have htrue : s6_at_head fn (r.drop i) = true := by
              obtain ⟨t, ht⟩ := hi
              have hdi : r.drop i = thumbW ++ (mm ++ ('/' :: fn ++ t)) := by
                rw [← ht]
                simp [List.append_assoc]
              unfold s6_at_head
              rw [hdi]
              dsimp only
              have hdrop : (thumbW ++ (mm ++ ('/' :: fn ++ t))).drop thumbW.length
                  = mm ++ ('/' :: fn ++ t) := by
                have h0 := drop_app thumbW (mm ++ ('/' :: fn ++ t)) 0
                rw [Nat.add_zero, List.drop_zero] at h0
                exact h0
              rw [hdrop, Bool.and_eq_true]
              constructor
              · exact List.isPrefixOf_iff_prefix.mpr (List.prefix_append _ _)
              · rw [List.any_eq_true]
                refine ⟨mm.length, ?_, ?_⟩
                · rw [List.mem_range]
                  have hmmall : ∀ cc ∈ mm, t_class cc = true := List.all_eq_true.mp hmm
                  have htw := takeWhile_append_all t_class mm hmmall ('/' :: fn ++ t)
                  rw [htw, List.length_append]
                  omega
                · have h0 := drop_app mm ('/' :: fn ++ t) 0
                  rw [Nat.add_zero, List.drop_zero] at h0
                  rw [h0]
                  exact List.isPrefixOf_iff_prefix.mpr (List.prefix_append _ _)
            rw [hfalse] at htrue
            exact Bool.false_ne_true htrue
          · refine ih (s.drop n) ?_ mm hmm hout
            have hd := List.length_drop n s
            simp only [List.length_cons] at hs
            omega
          · obtain ⟨pre, hpre2⟩ := hx1s
            have hx1d : r.drop pre.length = x1 := by
              rw [← hpre2]
              have h0 := drop_app pre x1 0
              rw [Nat.add_zero, List.drop_zero] at h0
              exact h0
            have hx1len : 0 < x1.length := List.length_pos.mpr hx1
            have hprelt : pre.length < r.length := by
              have hl := congrArg List.length hpre2
              simp only [List.length_append] at hl
              omega
            have hfalse := hS2 pre.length hprelt
            rw [hx1d] at hfalse
            have hXW : thumbW <+: (thumbW ++ mm ++ '/' :: fn) := by
              rw [List.append_assoc]
              exact List.prefix_append _ _
            have hx1X : x1 <+: (thumbW ++ mm ++ '/' :: fn) := ⟨x2, heq.symm⟩
            have htrue : s6_ext_right fn x1 = true := by
              unfold s6_ext_right
              dsimp only
              by_cases hlW : x1.length ≤ thumbW.length
              · rw [Bool.or_eq_true]
                left
                rw [List.isPrefixOf_iff_prefix]
                exact List.prefix_of_prefix_length_le hx1X hXW hlW
              · rw [Bool.or_eq_true]
                right
                rw [Bool.and_eq_true]
                have hWx1 : thumbW <+: x1 :=
                  List.prefix_of_prefix_length_le hXW hx1X (by omega)
                obtain ⟨rr, hrr⟩ := hWx1
                refine ⟨List.isPrefixOf_iff_prefix.mpr ⟨rr, hrr⟩, ?_⟩
                have hrrd : x1.drop thumbW.length = rr := by
                  rw [← hrr]
                  have h0 := drop_app thumbW rr 0
                  rw [Nat.add_zero, List.drop_zero] at h0
                  exact h0
                have hXeq : thumbW ++ (mm ++ '/' :: fn) = thumbW ++ (rr ++ x2) := by
                  calc thumbW ++ (mm ++ '/' :: fn)
                      = thumbW ++ mm ++ '/' :: fn := by rw [List.append_assoc]
                    _ = x1 ++ x2 := heq
                    _ = thumbW ++ rr ++ x2 := by rw [← hrr]
                    _ = thumbW ++ (rr ++ x2) := by rw [List.append_assoc]
                have hsplit2 : mm ++ '/' :: fn = rr ++ x2 :=
                  List.append_cancel_left hXeq
                rw [hrrd, List.any_eq_true]
                by_cases hrm : rr.length ≤ mm.length
                · have hrrmm : rr <+: mm := by
                    refine List.prefix_of_prefix_length_le ⟨x2, hsplit2.symm⟩ ?_ hrm
                    exact ⟨'/' :: fn, rfl⟩
                  refine ⟨rr.length, ?_, ?_⟩
                  · rw [List.mem_range]
                    omega
                  · simp only [List.take_length, List.drop_length]
                    rw [Bool.and_eq_true, Bool.and_eq_true]
                    refine ⟨⟨?_, ?_⟩, ?_⟩
                    · rw [List.all_eq_true]
                      intro cc hcc
                      exact List.all_eq_true.mp hmm cc (hrrmm.sublist.subset hcc)
                    · simp [List.isPrefixOf]
                    · simp
                · have hmmrr : mm <+: rr := by
                    refine List.prefix_of_prefix_length_le ?_ ⟨x2, hsplit2.symm⟩ (by omega)
                    exact ⟨'/' :: fn, rfl⟩
                  obtain ⟨rr2, hrr2⟩ := hmmrr
                  have hrr2p : rr2 <+: '/' :: fn := by
                    apply prefix_cancel mm
                    rw [hrr2]
                    exact ⟨x2, hsplit2.symm⟩
                  have hrr2d : rr.drop mm.length = rr2 := by
                    rw [← hrr2]
                    have h0 := drop_app mm rr2 0
                    rw [Nat.add_zero, List.drop_zero] at h0
                    exact h0
                  refine ⟨mm.length, ?_, ?_⟩
                  · rw [List.mem_range]
                    omega
                  · rw [Bool.and_eq_true, Bool.and_eq_true]
                    refine ⟨⟨?_, ?_⟩, ?_⟩
                    · have htk : rr.take mm.length = mm := by
                        rw [← hrr2, List.take_left]
                      rw [htk]
                      exact hmm
                    · rw [hrr2d]
                      exact List.isPrefixOf_iff_prefix.mpr hrr2p
                    · rw [hrr2d]
                      simp only [ne_eq, decide_not, Bool.not_eq_true',
                        decide_eq_false_iff_not, Decidable.not_not]
                      intro heqc
                      have hlen2 := congrArg List.length hsplit2
                      simp only [List.length_append, List.length_cons] at hlen2
                      have hx2len : 0 < x2.length := List.length_pos.mpr hx2
                      have hrr2len := congrArg List.length hrr2
                      simp only [List.length_append] at hrr2len
                      have hlc := congrArg List.length heqc
                      simp only [List.length_cons] at hlc
                      omega
            rw [hfalse] at htrue
            exact Bool.false_ne_true htrue

theorem lit_ok_safe (x r : List Char) (h : lit_ok x r = true) : LitSafe x r := by
  unfold lit_ok at h
  rw [Bool.and_eq_true, Bool.and_eq_true, Bool.and_eq_true, Bool.and_eq_true] at h
  obtain ⟨⟨⟨⟨hA, hB⟩, hC⟩, hD⟩, hE⟩ := h
  refine ⟨?_, ?_, ?_, ?_, ?_⟩
  · intro h0
    rw [h0] at hA
    simp at hA
  · intro hc
    rw [Bool.not_eq_true'] at hB
    have hcb := (infixB_iff x r).mpr hc
    rw [hB] at hcb
    exact Bool.false_ne_true hcb
  · intro hc
    rw [Bool.not_eq_true'] at hC
    have hcb := (infixB_iff r x).mpr hc
    rw [hC] at hcb
    exact Bool.false_ne_true hcb
  · intro k hk1 hk2 hc
    rw [List.all_eq_true] at hD
    have hk := hD k (List.mem_range.mpr hk2)
    simp only [Bool.or_eq_true, decide_eq_true_eq, Bool.not_eq_true'] at hk
    rcases hk with h0 | hsb
    · omega
    · have hcb := (suffixB_iff _ _).mpr hc
      rw [hsb] at hcb
      exact Bool.false_ne_true hcb
  · intro k hk1 hk2 hc
    rw [List.all_eq_true] at hE
    have hk := hE k (List.mem_range.mpr hk2)
    simp only [Bool.or_eq_true, decide_eq_true_eq, Bool.not_eq_true'] at hk
    rcases hk with h0 | hpb
    · omega
    · have hcb := List.isPrefixOf_iff_prefix.mpr hc
      rw [hpb] at hcb
      exact Bool.false_ne_true hcb

theorem s6_safe_safe (fn r : List Char) (h : s6_safe fn r = true) : S6Safe fn r := by
  unfold s6_safe at h
  rw [Bool.and_eq_true, Bool.and_eq_true, Bool.and_eq_true, Bool.and_eq_true,
    Bool.and_eq_true, Bool.and_eq_true, Bool.and_eq_true] at h
  obtain ⟨⟨⟨⟨⟨⟨⟨h1, h2⟩, h3⟩, h4⟩, h5⟩, h6⟩, h7⟩, h8⟩ := h
  refine ⟨?_, h2, ?_, ?_, ?_, ?_, ?_, ?_⟩
  · intro h0
    rw [h0] at h1
    simp at h1
  · intro i hi
    rw [Bool.not_eq_true', List.any_eq_false] at h3
    have hk := h3 i (List.mem_range.mpr (by omega))
    simp only [Bool.not_eq_true] at hk
    exact hk
  · intro i hi
    rw [List.all_eq_true] at h4
    have hk := h4 i (List.mem_range.mpr (by omega))
    simp only [Bool.or_eq_true, decide_eq_true_eq, Bool.not_eq_true'] at hk
    rcases hk with h0 | hb
    · omega
    · exact hb
  · intro i hi
    rw [List.all_eq_true] at h5
    have hk := h5 i (List.mem_range.mpr hi)
    simp only [Bool.not_eq_true'] at hk
    exact hk
  · intro i hi1 hi2
    rw [List.all_eq_true] at h6
    have hk := h6 i (List.mem_range.mpr hi2)
    simp only [Bool.or_eq_true, decide_eq_true_eq, Bool.and_eq_true,
      Bool.not_eq_true'] at hk
    rcases hk with h0 | ⟨ha, hb⟩
    · omega
    · constructor
      · intro hc
        have hcb := List.isPrefixOf_iff_prefix.mpr hc
        rw [ha] at hcb
        exact Bool.false_ne_true hcb
      · intro hc
        have hcb := List.isPrefixOf_iff_prefix.mpr hc
        rw [hb] at hcb
        exact Bool.false_ne_true hcb
  · intro j hj1 hj2 hc
    rw [List.all_eq_true] at h7
    have hk := h7 (j - 1) (List.mem_range.mpr (by omega))
    simp only [Bool.or_eq_true, decide_eq_true_eq, Bool.not_eq_true'] at hk
    rw [show j - 1 + 1 = j from by omega] at hk
    rcases hk with h0 | hb
    · omega
    · have hcb := List.isPrefixOf_iff_prefix.mpr hc
      rw [hb] at hcb
      exact Bool.false_ne_true hcb
  · intro hc
    rw [Bool.not_eq_true'] at h8
    have hcb := (infixB_iff r ('/' :: fn)).mpr hc
    rw [h8] at hcb
    exact Bool.false_ne_true hcb

/-- Claim C8, corrected: after `_rewrite_attachment_urls` runs for an
attachment with non-empty download URL and local path, the output HTML
contains no occurrence of any of the five URL variants — the absolute
URL, the `/wiki`-prefixed path, the path without `/wiki`, the path
without a leading slash, and the whole bare-thumbnail family
`/wiki/download/thumbnails/<class run>/<filename>` — provided the
variants do not recombine with the replacement text
`attachments/<local filename>` (the decidable conditions `lit_ok` and
`s6_safe`, met by ordinary attachment names).  Occurrences with a
trailing query string contain the bare variant, so they are excluded as
well.  Without those conditions the claim is false: the counterexample
rewrites an overlapping input into HTML that again contains the
no-slash variant. -/
theorem rewrite_attachment_urls_free (a : AttachmentRec) (html : String)
    (h1 : lit_ok (att_absolute a) (att_local_ref a) = true)
    (h2 : lit_ok (att_wiki_path a) (att_local_ref a) = true)
    (h3 : lit_ok (att_plain_path a) (att_local_ref a) = true)
    (h4 : lit_ok (att_plain_no_slash a) (att_local_ref a) = true)
    (h5 : s6_safe (att_file_name a) (att_local_ref a) = true)
    (hd : a.download_url.isEmpty = false) (hl : a.local_path.isEmpty = false) :
    ¬ att_absolute a <:+: (rewrite_attachment_urls html [a]).data ∧
    ¬ att_wiki_path a <:+: (rewrite_attachment_urls html [a]).data ∧
    ¬ att_plain_path a <:+: (rewrite_attachment_urls html [a]).data ∧
    ¬ att_plain_no_slash a <:+: (rewrite_attachment_urls html [a]).data ∧
    ∀ mm, mm.all t_class = true →
      ¬ s6_member (att_file_name a) mm <:+: (rewrite_attachment_urls html [a]).data := by
  obtain ⟨e1, e2, e3, e4, e5⟩ := lit_ok_safe _ _ h1
  obtain ⟨f1, f2, f3, f4, f5⟩ := lit_ok_safe _ _ h2
  obtain ⟨g1, g2, g3, g4, g5⟩ := lit_ok_safe _ _ h3
  obtain ⟨i1, i2, i3, i4, i5⟩ := lit_ok_safe _ _ h4
  obtain ⟨t1, t2, t3, t4, t5, t6, t7, t8⟩ := s6_safe_safe _ _ h5
  have hout : (rewrite_attachment_urls html [a]).data = rewrite_one a html.data := rfl
  have hone : rewrite_one a html.data =
      subG (thumbM6 (att_file_name a)) (att_local_ref a)
        (subG (thumbM5 (att_file_name a)) (att_local_ref a)
          (subG (litM (att_plain_no_slash a)) (att_local_ref a)
            (subG (litM (att_plain_path a)) (att_local_ref a)
              (subG (litM (att_wiki_path a)) (att_local_ref a)
                (subG (litM (att_absolute a)) (att_local_ref a) html.data))))) := by
    unfold rewrite_one
    rw [hd, hl]
    rfl
  rw [hout, hone]
  set r := att_local_ref a with hrdef
  set fn := att_file_name a with hfndef
  set X1 := att_absolute a with hX1
  set X2 := att_wiki_path a with hX2
  set X3 := att_plain_path a with hX3
  set X4 := att_plain_no_slash a with hX4
  have p2 : ∀ s, litM X2 s ≠ some 0 := litM_ne0 X2 f1
  have p3 : ∀ s, litM X3 s ≠ some 0 := litM_ne0 X3 g1
  have p4 : ∀ s, litM X4 s ≠ some 0 := litM_ne0 X4 i1
  have p5 : ∀ s, thumbM5 fn s ≠ some 0 := thumbM5_ne0 fn
  have p6 : ∀ s, thumbM6 fn s ≠ some 0 := thumbM6_ne0 fn
  have n2 : litM X2 [] = none := litM_nil X2 f1
  have n3 : litM X3 [] = none := litM_nil X3 g1
  have n4 : litM X4 [] = none := litM_nil X4 i1
  have n5 : thumbM5 fn [] = none := thumbM5_nil fn
  have n6 : thumbM6 fn [] = none := thumbM6_nil fn
  set o1 := subG (litM X1) r html.data with ho1
  set o2 := subG (litM X2) r o1 with ho2
  set o3 := subG (litM X3) r o2 with ho3
  set o4 := subG (litM X4) r o3 with ho4
  set o5 := subG (thumbM5 fn) r o4 with ho5
  have c11 : ¬ X1 <:+: o1 := by
    rw [ho1]
    exact lit_own X1 r e1 e2 e3 e4 e5 (html.data.length + 1) html.data (Nat.lt_succ_self _)
  have c12 : ¬ X1 <:+: o2 := by
    rw [ho2]
    exact lit_foreign X1 r (litM X2) p2 n2 e2 e3 e4 e5 (o1.length + 1) o1
      (Nat.lt_succ_self _) c11
  have c13 : ¬ X1 <:+: o3 := by
    rw [ho3]
    exact lit_foreign X1 r (litM X3) p3 n3 e2 e3 e4 e5 (o2.length + 1) o2
      (Nat.lt_succ_self _) c12
  have c14 : ¬ X1 <:+: o4 := by
    rw [ho4]
    exact lit_foreign X1 r (litM X4) p4 n4 e2 e3 e4 e5 (o3.length + 1) o3
      (Nat.lt_succ_self _) c13
  have c15 : ¬ X1 <:+: o5 := by
    rw [ho5]
    exact lit_foreign X1 r (thumbM5 fn) p5 n5 e2 e3 e4 e5 (o4.length + 1) o4
      (Nat.lt_succ_self _) c14
  have c16 : ¬ X1 <:+: subG (thumbM6 fn) r o5 :=
    lit_foreign X1 r (thumbM6 fn) p6 n6 e2 e3 e4 e5 (o5.length + 1) o5
      (Nat.lt_succ_self _) c15
  have c22 : ¬ X2 <:+: o2 := by
    rw [ho2]
    exact lit_own X2 r f1 f2 f3 f4 f5 (o1.length + 1) o1 (Nat.lt_succ_self _)
  have c23 : ¬ X2 <:+: o3 := by
    rw [ho3]
    exact lit_foreign X2 r (litM X3) p3 n3 f2 f3 f4 f5 (o2.length + 1) o2
      (Nat.lt_succ_self _) c22
  have c24 : ¬ X2 <:+: o4 := by
    rw [ho4]
    exact lit_foreign X2 r (litM X4) p4 n4 f2 f3 f4 f5 (o3.length + 1) o3
      (Nat.lt_succ_self _) c23
  have c25 : ¬ X2 <:+: o5 := by
    rw [ho5]
    exact lit_foreign X2 r (thumbM5 fn) p5 n5 f2 f3 f4 f5 (o4.length + 1) o4
      (Nat.lt_succ_self _) c24
  have c26 : ¬ X2 <:+: subG (thumbM6 fn) r o5 :=
    lit_foreign X2 r (thumbM6 fn) p6 n6 f2 f3 f4 f5 (o5.length + 1) o5
      (Nat.lt_succ_self _) c25
  have c33 : ¬ X3 <:+: o3 := by
    rw [ho3]
    exact lit_own X3 r g1 g2 g3 g4 g5 (o2.length + 1) o2 (Nat.lt_succ_self _)
  have c34 : ¬ X3 <:+: o4 := by
    rw [ho4]
    exact lit_foreign X3 r (litM X4) p4 n4 g2 g3 g4 g5 (o3.length + 1) o3
      (Nat.lt_succ_self _) c33
  have c35 : ¬ X3 <:+: o5 := by
    rw [ho5]
    exact lit_foreign X3 r (thumbM5 fn) p5 n5 g2 g3 g4 g5 (o4.length + 1) o4
      (Nat.lt_succ_self _) c34
  have c36 : ¬ X3 <:+: subG (thumbM6 fn) r o5 :=
    lit_foreign X3 r (thumbM6 fn) p6 n6 g2 g3 g4 g5 (o5.length + 1) o5
      (Nat.lt_succ_self _) c35
  have c44 : ¬ X4 <:+: o4 := by
    rw [ho4]
    exact lit_own X4 r i1 i2 i3 i4 i5 (o3.length + 1) o3 (Nat.lt_succ_self _)
  have c45 : ¬ X4 <:+: o5 := by
    rw [ho5]
    exact lit_foreign X4 r (thumbM5 fn) p5 n5 i2 i3 i4 i5 (o4.length + 1) o4
      (Nat.lt_succ_self _) c44
  have c46 : ¬ X4 <:+: subG (thumbM6 fn) r o5 :=
    lit_foreign X4 r (thumbM6 fn) p6 n6 i2 i3 i4 i5 (o5.length + 1) o5
      (Nat.lt_succ_self _) c45
  refine ⟨c16, c26, c36, c46, ?_⟩
  intro mm hmmc
  unfold s6_member
  exact s6_own fn r t1 t2 t3 t4 t5 t6 t7 t8 (o5.length + 1) o5 (Nat.lt_succ_self _) mm hmmc

/-- Witness for claim C8: the concrete attachment `att_w` satisfies all
non-recombination conditions, and the rewritten HTML is free of every
variant of its download URL. -/
theorem rewrite_attachment_urls_free_witness :
    (lit_ok (att_absolute att_w) (att_local_ref att_w) = true ∧
      lit_ok (att_wiki_path att_w) (att_local_ref att_w) = true ∧
      lit_ok (att_plain_path att_w) (att_local_ref att_w) = true ∧
      lit_ok (att_plain_no_slash att_w) (att_local_ref att_w) = true ∧
      s6_safe (att_file_name att_w) (att_local_ref att_w) = true ∧
      att_w.download_url.isEmpty = false ∧ att_w.local_path.isEmpty = false) ∧
    (¬ att_absolute att_w <:+:
        (rewrite_attachment_urls "<img src=\"/wiki/download/attachments/123/pic.png\">"
          [att_w]).data ∧
      ¬ att_wiki_path att_w <:+:
        (rewrite_attachment_urls "<img src=\"/wiki/download/attachments/123/pic.png\">"
          [att_w]).data ∧
      ¬ att_plain_path att_w <:+:
        (rewrite_attachment_urls "<img src=\"/wiki/download/attachments/123/pic.png\">"
          [att_w]).data ∧
      ¬ att_plain_no_slash att_w <:+:
        (rewrite_attachment_urls "<img src=\"/wiki/download/attachments/123/pic.png\">"
          [att_w]).data ∧
      ∀ mm, mm.all t_class = true →
        ¬ s6_member (att_file_name att_w) mm <:+:
          (rewrite_attachment_urls "<img src=\"/wiki/download/attachments/123/pic.png\">"
            [att_w]).data) := by
  constructor
  · exact ⟨by decide, by decide, by decide, by decide, by decide, by decide, by decide⟩
  · exact rewrite_attachment_urls_free att_w
      "<img src=\"/wiki/download/attachments/123/pic.png\">"
      (by decide) (by decide) (by decide) (by decide) (by decide) (by decide) (by decide)

/-- Counterexample for claim C8 as stated: on the attachment `att_cx`
and an overlapping input, the substitution recombines the inserted
replacement `attachments/10_d` with the remaining text, and the final
HTML contains a fresh occurrence of the no-slash variant
`download/attachments/1/f` that lies inside no inserted replacement. -/
theorem rewrite_attachment_urls_counterexample :
    rewrite_attachment_urls "download/attachments/1/fownload/attachments/1/f" [att_cx] =
      "attachments/10_download/attachments/1/f" ∧
    infixB (att_plain_no_slash att_cx)
      (rewrite_attachment_urls "download/attachments/1/fownload/attachments/1/f"
        [att_cx]).data = true ∧
    infixB (att_plain_no_slash att_cx) (att_local_ref att_cx) = false := by
  exact ⟨by decide, by decide, by decide⟩

end PHT
